import Mathlib

/-!
Verification development for `descomprimir_concatenar_mat.py`, a pipeline that
converts TDMS measurement files to CSV tables, groups the rows into calendar-day
CSV files with cross-run continuation through a `temp` folder, and exports the
day files to MAT.

The embedding is shallow: timestamps are tuples of natural numbers ordered
lexicographically (modelling pandas datetime64 order), a CSV file is a named
list of row chunks (modelling `pd.read_csv(..., chunksize=10000)`), the input
folder and the `temp` continuation folder are lists of such files, and the
day-aggregation engine `ordenar_y_agrupado_por_dia` is a pure function from a
folder state to a folder state plus the log of day files it writes.
-/

/-- A calendar date, the `DayKey` extracted by `chunk['Time'].dt.date`. -/
structure Date where
  year : Nat
  month : Nat
  day : Nat
deriving DecidableEq

/-- A timestamp with sub-second precision, as held in the `Time` column. -/
structure Time where
  date : Date
  hour : Nat
  minute : Nat
  second : Nat
  micros : Nat
deriving DecidableEq

/-- A row of a table: its `Time` cell plus an abstract payload standing for the
remaining (non-time) columns. -/
structure Row where
  time : Time
  val : Nat
deriving DecidableEq

def Date.toList (d : Date) : List Nat := [d.year, d.month, d.day]

def Time.toList (t : Time) : List Nat :=
  [t.date.year, t.date.month, t.date.day, t.hour, t.minute, t.second, t.micros]

/-- Lexicographic order on equally long lists of naturals; the order pandas
uses on datetime64 values once a timestamp is viewed field by field. -/
def lexLe : List Nat → List Nat → Bool
  | [], _ => true
  | _ :: _, [] => false
  | a :: as, b :: bs => if a < b then true else if b < a then false else lexLe as bs

theorem lexLe_refl (as : List Nat) : lexLe as as = true := by
  induction as with
  | nil => rfl
  | cons a as ih => simp [lexLe, ih]

theorem lexLe_total (as bs : List Nat) : lexLe as bs = true ∨ lexLe bs as = true := by
  induction as generalizing bs with
  | nil => exact Or.inl rfl
  | cons a as ih =>
    cases bs with
    | nil => exact Or.inr rfl
    | cons b bs =>
      by_cases hab : a < b
      · exact Or.inl (by simp [lexLe, hab])
      · by_cases hba : b < a
        · exact Or.inr (by simp [lexLe, hba, Nat.lt_asymm hba])
        · rcases ih bs with h | h
          · exact Or.inl (by simp [lexLe, hab, hba, h])
          · exact Or.inr (by simp [lexLe, hab, hba, h])

theorem lexLe_trans {as bs cs : List Nat} (h1 : lexLe as bs = true)
    (h2 : lexLe bs cs = true) : lexLe as cs = true := by
  induction as generalizing bs cs with
  | nil => rfl
  | cons a as ih =>
    cases bs with
    | nil => simp [lexLe] at h1
    | cons b bs =>
      cases cs with
      | nil => simp [lexLe] at h2
      | cons c cs =>
        simp only [lexLe] at h1 h2 ⊢
        by_cases hab : a < b
        · by_cases hbc : b < c
          · simp [Nat.lt_trans hab hbc]
          · by_cases hcb : c < b
            · simp [hbc, hcb] at h2
            · have : b = c := Nat.le_antisymm (Nat.not_lt.mp hcb) (Nat.not_lt.mp hbc)
              subst this
              simp [hab]
        · by_cases hba : b < a
          · simp [hab, hba] at h1
          · have hab' : a = b := Nat.le_antisymm (Nat.not_lt.mp hba) (Nat.not_lt.mp hab)
            subst hab'
            rw [if_neg (Nat.lt_irrefl a), if_neg (Nat.lt_irrefl a)] at h1
            by_cases hbc : a < c
            · simp [hbc]
            · by_cases hcb : c < a
              · simp [hbc, hcb] at h2
              · simp only [if_neg hbc, if_neg hcb] at h2 ⊢
                exact ih h1 h2

theorem lexLe_antisymm {as bs : List Nat} (h1 : lexLe as bs = true)
    (h2 : lexLe bs as = true) : as = bs := by
  induction as generalizing bs with
  | nil =>
    cases bs with
    | nil => rfl
    | cons b bs => simp [lexLe] at h2
  | cons a as ih =>
    cases bs with
    | nil => simp [lexLe] at h1
    | cons b bs =>
      simp only [lexLe] at h1 h2
      by_cases hab : a < b
      · simp [hab, Nat.lt_asymm hab] at h2
      · by_cases hba : b < a
        · simp [hab, hba] at h1
        · have hab' : a = b := Nat.le_antisymm (Nat.not_lt.mp hba) (Nat.not_lt.mp hab)
          subst hab'
          rw [if_neg (Nat.lt_irrefl a), if_neg (Nat.lt_irrefl a)] at h1 h2
          rw [ih h1 h2]

def Time.le (a b : Time) : Bool := lexLe a.toList b.toList

theorem Time.toList_inj {a b : Time} (h : a.toList = b.toList) : a = b := by
  obtain ⟨⟨ay, amo, ad⟩, ah, ami, asec, amu⟩ := a
  obtain ⟨⟨cy, cmo, cd⟩, ch, cmi, csec, cmu⟩ := b
  simp only [Time.toList, List.cons.injEq, and_true] at h
  obtain ⟨h1, h2, h3, h4, h5, h6, h7⟩ := h
  subst h1; subst h2; subst h3; subst h4; subst h5; subst h6; subst h7
  rfl

theorem Time.le_refl (t : Time) : Time.le t t = true := lexLe_refl _

theorem Time.le_total' (a b : Time) : Time.le a b = true ∨ Time.le b a = true :=
  lexLe_total _ _

theorem Time.le_trans' {a b c : Time} (h1 : Time.le a b = true)
    (h2 : Time.le b c = true) : Time.le a c = true := lexLe_trans h1 h2

theorem Time.le_antisymm' {a b : Time} (h1 : Time.le a b = true)
    (h2 : Time.le b a = true) : a = b := Time.toList_inj (lexLe_antisymm h1 h2)

/-- The comparison used by `chunk.sort_values(by='Time')`: rows are compared by
their `Time` cell. -/
def RowLe (a b : Row) : Prop := Time.le a.time b.time = true

instance : DecidableRel RowLe := fun a b =>
  inferInstanceAs (Decidable (Time.le a.time b.time = true))

instance : IsTotal Row RowLe := ⟨fun a b => Time.le_total' a.time b.time⟩

instance : IsTrans Row RowLe := ⟨fun _ _ _ h1 h2 => Time.le_trans' h1 h2⟩

/-- The order on `DayKeys`, used by `groupby('Date')` to emit its groups in
ascending key order. -/
def DateLe (a b : Date) : Prop := lexLe a.toList b.toList = true

instance : DecidableRel DateLe := fun a b =>
  inferInstanceAs (Decidable (lexLe a.toList b.toList = true))

instance : IsTotal Date DateLe := ⟨fun _ _ => lexLe_total _ _⟩

instance : IsTrans Date DateLe := ⟨fun _ _ _ h1 h2 => lexLe_trans h1 h2⟩

/-- `chunk.sort_values(by='Time', inplace=True)`. -/
def sortRows (rs : List Row) : List Row := List.insertionSort RowLe rs

/-- `daily_data['Time'].max()`: the largest `Time` cell of a list of rows,
`none` on an empty list (pandas would give `NaT`). -/
def maxTime (rs : List Row) : Option Time :=
  rs.foldl
    (fun acc r =>
      match acc with
      | none => some r.time
      | some t => some (if Time.le t r.time then r.time else t))
    none

/-- One step of the fold inside `maxTime`, starting from an already-seen time. -/
theorem maxTime_go_spec (rs : List Row) (t0 : Time) :
    ∃ t, rs.foldl
        (fun acc r =>
          match acc with
          | none => some r.time
          | some t => some (if Time.le t r.time then r.time else t))
        (some t0) = some t ∧
      (t = t0 ∨ t ∈ rs.map Row.time) ∧ Time.le t0 t = true ∧
      ∀ r ∈ rs, Time.le r.time t = true := by
  induction rs generalizing t0 with
  | nil => exact ⟨t0, rfl, Or.inl rfl, Time.le_refl t0, by simp⟩
  | cons r rs ih =>
    by_cases h : Time.le t0 r.time = true
    · obtain ⟨t, hfold, hmem, hle, hub⟩ := ih r.time
      refine ⟨t, ?_, ?_, Time.le_trans' h hle, ?_⟩
      · simpa [h] using hfold
      · rcases hmem with h' | h'
        · exact Or.inr (by simp [h'])
        · exact Or.inr (by simp [h'])
      · intro r' hr'
        rcases List.mem_cons.mp hr' with h' | h'
        · subst h'; exact Time.le_trans' hle (Time.le_refl t)
        · exact hub r' h'
    · have h' : Time.le r.time t0 = true :=
        (Time.le_total' t0 r.time).resolve_left h
      obtain ⟨t, hfold, hmem, hle, hub⟩ := ih t0
      refine ⟨t, ?_, ?_, hle, ?_⟩
      · have : Time.le t0 r.time = false := by
          cases h'' : Time.le t0 r.time
          · rfl
          · exact absurd h'' h
        simpa [this] using hfold
      · rcases hmem with h'' | h''
        · exact Or.inl h''
        · exact Or.inr (by simp [h''])
      · intro r' hr'
        rcases List.mem_cons.mp hr' with h'' | h''
        · subst h''; exact Time.le_trans' h' hle
        · exact hub r' h''

theorem maxTime_nil : maxTime [] = none := rfl

theorem maxTime_spec {rs : List Row} {t : Time} (h : maxTime rs = some t) :
    t ∈ rs.map Row.time ∧ ∀ r ∈ rs, Time.le r.time t = true := by
  cases rs with
  | nil => simp [maxTime] at h
  | cons r rs =>
    obtain ⟨t', hfold, hmem, hle, hub⟩ := maxTime_go_spec rs r.time
    have ht' : t' = t := by
      have : maxTime (r :: rs) = some t' := by simpa [maxTime] using hfold
      rw [this] at h
      exact (Option.some.injEq _ _ ▸ h)
    subst ht'
    constructor
    · rcases hmem with h' | h'
      · exact h' ▸ (by simp)
      · simp [h']
    · intro r' hr'
      rcases List.mem_cons.mp hr' with h' | h'
      · subst h'; exact hle
      · exact hub r' h'

theorem maxTime_isSome {rs : List Row} (h : rs ≠ []) : ∃ t, maxTime rs = some t := by
  cases rs with
  | nil => exact absurd rfl h
  | cons r rs =>
    obtain ⟨t, hfold, _, _, _⟩ := maxTime_go_spec rs r.time
    exact ⟨t, by simpa [maxTime] using hfold⟩

theorem maxTime_eq_none {rs : List Row} (h : maxTime rs = none) : rs = [] := by
  cases rs with
  | nil => rfl
  | cons r rs =>
    obtain ⟨t, hfold⟩ := maxTime_isSome (show r :: rs ≠ [] by simp)
    rw [hfold] at h
    exact absurd h (by simp)

/-- The maximum of a list of rows only depends on its multiset of rows:
pandas `.max()` gives the same answer however the rows are ordered. -/
theorem maxTime_perm {rs rs' : List Row} (h : rs.Perm rs') :
    maxTime rs = maxTime rs' := by
  cases hm : maxTime rs with
  | none =>
    have : rs = [] := maxTime_eq_none hm
    subst this
    have : rs' = [] := h.nil_eq.symm
    subst this
    rfl
  | some t =>
    cases hm' : maxTime rs' with
    | none =>
      have : rs' = [] := maxTime_eq_none hm'
      subst this
      have : rs = [] := h.eq_nil
      subst this
      simp [maxTime] at hm
    | some t' =>
      obtain ⟨hmem, hub⟩ := maxTime_spec hm
      obtain ⟨hmem', hub'⟩ := maxTime_spec hm'
      obtain ⟨r, hr, hrt⟩ := List.mem_map.mp hmem
      obtain ⟨r', hr', hrt'⟩ := List.mem_map.mp hmem'
      have h1 : Time.le t t' = true := hrt ▸ hub' r (h.mem_iff.mp hr)
      have h2 : Time.le t' t = true := hrt' ▸ hub r' (h.mem_iff.mpr hr')
      rw [Time.le_antisymm' h1 h2]

/-- `pd.concat(groups, ignore_index=True)` (and any other list-of-lists
concatenation in the script). -/
def concatAll (xss : List (List α)) : List α := xss.foldr (· ++ ·) []

theorem concatAll_nil : concatAll ([] : List (List α)) = [] := rfl

theorem concatAll_cons (xs : List α) (xss : List (List α)) :
    concatAll (xs :: xss) = xs ++ concatAll xss := rfl

theorem concatAll_append (xss yss : List (List α)) :
    concatAll (xss ++ yss) = concatAll xss ++ concatAll yss := by
  induction xss with
  | nil => rfl
  | cons xs xss ih => simp [concatAll_cons, ih, List.append_assoc]

/-- A CSV file as the engine sees it: its file name, its rows as the list of
chunks `pd.read_csv(file, ..., chunksize=10000)` yields, and a flag telling
whether fetching the next chunk after those raises (a malformed file). -/
structure CsvFile where
  name : String
  chunks : List (List Row)
  bad : Bool
deriving DecidableEq

/-- The two filesystem locations the engine works with: the input folder and
the script-side `temp` folder (the Continuation Store). -/
structure FsState where
  input : List CsvFile
  temp : List CsvFile
deriving DecidableEq

/-- One `daily_data.to_csv(output_file, ...)` call of the engine, recorded with
the `DayKey` the file is for. -/
structure WriteEvent where
  day : Date
  name : String
  rows : List Row
deriving DecidableEq

/-- Result of one engine run: whether it ran to completion (`ok = false` means
an unhandled chunk-read exception aborted it), the folder state it leaves
behind, and the day files it wrote along the way. -/
structure EngineResult where
  ok : Bool
  state : FsState
  writes : List WriteEvent
deriving DecidableEq

/-- Creating a file in a folder, overwriting any file of the same name
(`shutil.move` / `shutil.copy` / `to_csv` onto an existing path). -/
def replaceFile (folder : List CsvFile) (f : CsvFile) : List CsvFile :=
  folder.filter (fun g => decide (g.name ≠ f.name)) ++ [f]

/-- `os.remove` by file name. -/
def removeName (folder : List CsvFile) (nm : String) : List CsvFile :=
  folder.filter (fun g => decide (g.name ≠ nm))

/-- The loop at the top of `ordenar_y_agrupado_por_dia`: every file of the
`temp` folder is moved into the input folder under its unchanged name. -/
def moveTempIn (st : FsState) : FsState :=
  { input := st.temp.foldl replaceFile st.input, temp := [] }

/-- Zero-padded decimal rendering, as Python string formatting produces for
the fields of a `datetime.date`. -/
def padNum (k n : Nat) : String :=
  let s := toString n
  String.mk (List.replicate (k - s.length) '0') ++ s

/-- `f"{date}"`: the literal ISO rendering of a `datetime.date`. -/
def isoDate (d : Date) : String :=
  padNum 4 d.year ++ "-" ++ padNum 2 d.month ++ "-" ++ padNum 2 d.day

/-- `f"{date}.csv"`, the output file name for a `DayKey`. -/
def dayFileName (d : Date) : String := isoDate d ++ ".csv"

/-- `f"{date}_temp.csv"`, the Continuation Store record name for a `DayKey`. -/
def tempFileName (d : Date) : String := isoDate d ++ "_temp.csv"

/-- `last_time.hour != 23 or last_time.minute != 59 or last_time.second != 59`:
the engine's incompleteness test on a day's maximum time. -/
def esIncompleto (t : Time) : Bool :=
  !(t.hour == 23) || !(t.minute == 59) || !(t.second == 59)

/-- The in-memory `datos_por_dia` dictionary: an insertion-ordered association
from `DayKey` to the list of row-groups accumulated for it. -/
abbrev DayDict := List (Date × List (List Row))

/-- `datos_por_dia[date].append(group)`, creating the entry if absent. -/
def dictAppend (dict : DayDict) (d : Date) (g : List Row) : DayDict :=
  match dict with
  | [] => [(d, [g])]
  | (k, gs) :: rest =>
    if k = d then (k, gs ++ [g]) :: rest else (k, gs) :: dictAppend rest d g

/-- The distinct `Date` keys of a chunk, in the ascending order in which
`chunk.groupby('Date')` yields its groups. -/
def chunkDates (c : List Row) : List Date :=
  List.insertionSort DateLe (c.map (fun r => r.time.date)).dedup

/-- The body of the per-chunk loop: sort the chunk by `Time`, derive the
`Date` column, and append each `groupby('Date')` group to the dictionary. -/
def processChunk (dict : DayDict) (c : List Row) : DayDict :=
  let sc := sortRows c
  (chunkDates sc).foldl
    (fun acc d => dictAppend acc d (sc.filter (fun r => decide (r.time.date = d))))
    dict

/-- The dictionary built by streaming every chunk of every file, in order. -/
def buildDict (files : List CsvFile) : DayDict :=
  files.foldl (fun dict f => f.chunks.foldl processChunk dict) []

/-- The chunk-reading phase: `none` models the unhandled exception raised when
some file's next chunk cannot be read, which aborts the whole engine call. -/
def readAll (files : List CsvFile) : Option DayDict :=
  if files.any (fun f => f.bad) then none else some (buildDict files)

/-- The body of the per-day finalize loop, acting on the input folder, the
`temp` folder and the write log: concatenate the day's groups, write the day
file, and on an incomplete day copy it to `temp` and (unless
`procesar_incompleto`) delete the just-written output. -/
def finStep (flag : Bool) (acc : List CsvFile × List CsvFile × List WriteEvent)
    (e : Date × List (List Row)) : List CsvFile × List CsvFile × List WriteEvent :=
  let area := acc.1
  let tmp := acc.2.1
  let ws := acc.2.2
  let daily := concatAll e.2
  let outName := dayFileName e.1
  let area1 := replaceFile area ⟨outName, [daily], false⟩
  let ws1 := ws ++ [⟨e.1, outName, daily⟩]
  match maxTime daily with
  | none => (area1, tmp, ws1)
  | some t =>
    if esIncompleto t then
      ((if flag then area1 else removeName area1 outName),
       replaceFile tmp ⟨tempFileName e.1, [daily], false⟩, ws1)
    else (area1, tmp, ws1)

/-- `eliminar_archivos_csv(csv_files)`: delete, from the input folder, every
file whose path was in the list collected at the start of the run. -/
def eliminar_archivos_csv (folder : List CsvFile) (csvNames : List String) :
    List CsvFile :=
  folder.filter (fun f => decide (f.name ∉ csvNames))

/-- `ordenar_y_agrupado_por_dia(input_folder, procesar_incompleto)`: move the
continuation records into the input folder, list the CSV files, stream them
chunk by chunk into `datos_por_dia`, finalize each day, and delete the
consumed inputs. -/
def ordenar_y_agrupado_por_dia (st : FsState) (procesar_incompleto : Bool) :
    EngineResult :=
  let st1 := moveTempIn st
  let csvFiles := st1.input
  if csvFiles.isEmpty then ⟨true, st1, []⟩
  else
    match readAll csvFiles with
    | none => ⟨false, st1, []⟩
    | some dict =>
      let res := dict.foldl (finStep procesar_incompleto) (csvFiles, [], [])
      let csvNames := csvFiles.map (fun f => f.name)
      ⟨true, ⟨eliminar_archivos_csv res.1 csvNames, res.2.1⟩, res.2.2⟩

/-- All rows of one file, its chunks concatenated. -/
def fileRows (f : CsvFile) : List Row := concatAll f.chunks

/-- The rows for one `DayKey` among a list of files, in file/chunk order. -/
def dayRows (files : List CsvFile) (d : Date) : List Row :=
  (concatAll (files.map fileRows)).filter (fun r => decide (r.time.date = d))

/-- The contents of the day files a run wrote for one `DayKey`. -/
def dayWrites (res : EngineResult) (d : Date) : List (List Row) :=
  (res.writes.filter (fun w => decide (w.day = d))).map WriteEvent.rows

/-- The `DayKeys` a run observes, in first-appearance order. -/
def dictKeys (files : List CsvFile) : List Date := (buildDict files).map Prod.fst

/-- Looking a `DayKey` up in `datos_por_dia` (first match; keys are unique). -/
def dictGroups (dict : DayDict) (d : Date) : List (List Row) :=
  match dict with
  | [] => []
  | (k, gs) :: rest => if k = d then gs else dictGroups rest d

/-- All rows accumulated for a `DayKey`, its groups concatenated. -/
def dictRows (dict : DayDict) (d : Date) : List Row := concatAll (dictGroups dict d)

theorem dictGroups_dictAppend (dict : DayDict) (d' : Date) (g : List Row) (d : Date) :
    dictGroups (dictAppend dict d' g) d =
      dictGroups dict d ++ (if d = d' then [g] else []) := by
  induction dict with
  | nil =>
    by_cases h : d = d'
    · simp [dictAppend, dictGroups, h]
    · simp [dictAppend, dictGroups, h, Ne.symm h]
  | cons e rest ih =>
    obtain ⟨k, gs⟩ := e
    by_cases hk : k = d'
    · subst hk
      by_cases hd : d = k
      · subst hd
        simp [dictAppend, dictGroups]
      · simp [dictAppend, dictGroups, hd, Ne.symm hd]
    · by_cases hd : k = d
      · have hnd : ¬ d = d' := by rw [← hd]; exact hk
        simp [dictAppend, dictGroups, hk, hd, hnd]
      · simp [dictAppend, dictGroups, hk, hd, ih]

theorem keys_dictAppend (dict : DayDict) (d : Date) (g : List Row) :
    (dictAppend dict d g).map Prod.fst =
      if d ∈ dict.map Prod.fst then dict.map Prod.fst
      else dict.map Prod.fst ++ [d] := by
  induction dict with
  | nil => simp [dictAppend]
  | cons e rest ih =>
    obtain ⟨k, gs⟩ := e
    by_cases hk : k = d
    · subst hk
      simp [dictAppend]
    · have : ¬ d = k := Ne.symm hk
      by_cases hmem : d ∈ rest.map Prod.fst
      · simp [dictAppend, hk, this, hmem, ih]
      · simp [dictAppend, hk, this, hmem, ih]

theorem keys_nodup_dictAppend {dict : DayDict} (h : (dict.map Prod.fst).Nodup)
    (d : Date) (g : List Row) : ((dictAppend dict d g).map Prod.fst).Nodup := by
  rw [keys_dictAppend]
  by_cases hmem : d ∈ dict.map Prod.fst
  · simpa [hmem] using h
  · simp only [hmem, if_false]
    simp [List.nodup_append, h, hmem]

theorem dictGroups_of_not_mem {dict : DayDict} {d : Date}
    (h : d ∉ dict.map Prod.fst) : dictGroups dict d = [] := by
  induction dict with
  | nil => rfl
  | cons e rest ih =>
    obtain ⟨k, gs⟩ := e
    simp only [List.map_cons, List.mem_cons] at h
    push_neg at h
    have : ¬ k = d := fun h' => h.1 h'.symm
    simp [dictGroups, this, ih h.2]

theorem dictGroups_mem {dict : DayDict} {d : Date} (h : d ∈ dict.map Prod.fst) :
    (d, dictGroups dict d) ∈ dict := by
  induction dict with
  | nil => simp at h
  | cons e rest ih =>
    obtain ⟨k, gs⟩ := e
    by_cases hk : k = d
    · subst hk
      simp [dictGroups]
    · simp only [List.map_cons, List.mem_cons] at h
      rcases h with h | h
      · exact absurd h.symm hk
      · simp [dictGroups, hk, ih h]

theorem dictGroups_eq_of_mem {dict : DayDict} {e : Date × List (List Row)}
    (hk : (dict.map Prod.fst).Nodup) (h : e ∈ dict) : dictGroups dict e.1 = e.2 := by
  induction dict with
  | nil => simp at h
  | cons e' rest ih =>
    obtain ⟨k, gs⟩ := e'
    rcases List.mem_cons.mp h with h1 | h1
    · subst h1
      simp [dictGroups]
    · have hne : ¬ k = e.1 := by
        intro h'
        simp only [List.map_cons, List.nodup_cons] at hk
        exact hk.1 (by rw [h']; exact List.mem_map.mpr ⟨e, h1, rfl⟩)
      simp only [List.map_cons, List.nodup_cons] at hk
      simp [dictGroups, hne, ih hk.2 h1]

theorem chunkDates_nodup (c : List Row) : (chunkDates c).Nodup :=
  (List.perm_insertionSort DateLe _).nodup_iff.mpr
    (List.nodup_dedup _)

theorem mem_chunkDates {c : List Row} {d : Date} :
    d ∈ chunkDates c ↔ d ∈ c.map (fun r => r.time.date) := by
  unfold chunkDates
  rw [(List.perm_insertionSort DateLe _).mem_iff, List.mem_dedup]

theorem sortRows_perm (c : List Row) : (sortRows c).Perm c :=
  List.perm_insertionSort RowLe c

theorem mem_sortRows {c : List Row} {r : Row} : r ∈ sortRows c ↔ r ∈ c :=
  (sortRows_perm c).mem_iff

theorem dictGroups_foldAppend (ds : List Date) (hnd : ds.Nodup)
    (f : Date → List Row) (dict : DayDict) (d : Date) :
    dictGroups (ds.foldl (fun acc dd => dictAppend acc dd (f dd)) dict) d =
      dictGroups dict d ++ (if d ∈ ds then [f d] else []) := by
  induction ds generalizing dict with
  | nil => simp
  | cons dd ds ih =>
    simp only [List.nodup_cons] at hnd
    rw [List.foldl_cons, ih hnd.2, dictGroups_dictAppend]
    by_cases hd : d = dd
    · subst hd
      simp [hnd.1]
    · simp [hd, Ne.symm hd]

theorem dictGroups_processChunk (dict : DayDict) (c : List Row) (d : Date) :
    dictGroups (processChunk dict c) d =
      dictGroups dict d ++
        (if d ∈ c.map (fun r => r.time.date)
         then [(sortRows c).filter (fun r => decide (r.time.date = d))]
         else []) := by
  unfold processChunk
  rw [dictGroups_foldAppend _ (chunkDates_nodup _)]
  have hmem : d ∈ chunkDates (sortRows c) ↔ d ∈ c.map (fun r => r.time.date) := by
    rw [mem_chunkDates]
    constructor
    · intro h
      obtain ⟨r, hr, hrd⟩ := List.mem_map.mp h
      exact List.mem_map.mpr ⟨r, mem_sortRows.mp hr, hrd⟩
    · intro h
      obtain ⟨r, hr, hrd⟩ := List.mem_map.mp h
      exact List.mem_map.mpr ⟨r, mem_sortRows.mpr hr, hrd⟩
  by_cases h : d ∈ c.map (fun r => r.time.date)
  · rw [if_pos (hmem.mpr h), if_pos h]
  · rw [if_neg (fun h' => h (hmem.mp h')), if_neg h]

theorem dictRows_processChunk (dict : DayDict) (c : List Row) (d : Date) :
    dictRows (processChunk dict c) d =
      dictRows dict d ++ (sortRows c).filter (fun r => decide (r.time.date = d)) := by
  unfold dictRows
  rw [dictGroups_processChunk, concatAll_append]
  by_cases h : d ∈ c.map (fun r => r.time.date)
  · simp [h, concatAll_cons, concatAll_nil]
  · have : (sortRows c).filter (fun r => decide (r.time.date = d)) = [] := by
      rw [List.filter_eq_nil_iff]
      intro r hr
      simp only [decide_eq_true_eq]
      intro hrd
      exact h (List.mem_map.mpr ⟨r, mem_sortRows.mp hr, hrd⟩)
    simp [h, this, concatAll_nil]

theorem dictRows_foldChunks (cs : List (List Row)) (dict : DayDict) (d : Date) :
    dictRows (cs.foldl processChunk dict) d =
      dictRows dict d ++
        (concatAll (cs.map sortRows)).filter (fun r => decide (r.time.date = d)) := by
  induction cs generalizing dict with
  | nil => simp [concatAll_nil]
  | cons c cs ih =>
    rw [List.foldl_cons, ih, dictRows_processChunk, List.map_cons, concatAll_cons,
      List.filter_append, List.append_assoc]

theorem filter_sortRows_perm (c : List Row) (p : Row → Bool) :
    ((sortRows c).filter p).Perm (c.filter p) :=
  (sortRows_perm c).filter p

theorem concatAll_map_sortRows_filter_perm (cs : List (List Row)) (p : Row → Bool) :
    ((concatAll (cs.map sortRows)).filter p).Perm ((concatAll cs).filter p) := by
  induction cs with
  | nil => simp [concatAll_nil]
  | cons c cs ih =>
    simp only [List.map_cons, concatAll_cons, List.filter_append]
    exact ((sortRows_perm c).filter p).append ih

/-- The dictionary built from a list of files holds, for each `DayKey`, a
permutation of exactly the rows of that day found in the files. -/
theorem dictRows_buildDict_aux (files : List CsvFile) (dict : DayDict) (d : Date) :
    (dictRows (files.foldl (fun acc f => f.chunks.foldl processChunk acc) dict) d).Perm
      (dictRows dict d ++
        (concatAll (files.map fileRows)).filter (fun r => decide (r.time.date = d))) := by
  induction files generalizing dict with
  | nil => simp [concatAll_nil]
  | cons f files ih =>
    rw [List.foldl_cons]
    refine (ih _).trans ?_
    rw [dictRows_foldChunks, List.map_cons, concatAll_cons, List.filter_append,
      List.append_assoc]
    refine List.Perm.append_left _ ?_
    refine List.Perm.append ?_ (List.Perm.refl _)
    show ((concatAll (f.chunks.map sortRows)).filter _).Perm ((fileRows f).filter _)
    exact concatAll_map_sortRows_filter_perm f.chunks _

theorem dictRows_buildDict (files : List CsvFile) (d : Date) :
    (dictRows (buildDict files) d).Perm (dayRows files d) := by
  have := dictRows_buildDict_aux files [] d
  simpa [buildDict, dictRows, dictGroups, concatAll_nil, dayRows] using this

theorem dictKeys_nodup_foldAppend (ds : List Date) (f : Date → List Row)
    {dict : DayDict} (h : (dict.map Prod.fst).Nodup) :
    (((ds.foldl (fun acc dd => dictAppend acc dd (f dd)) dict)).map Prod.fst).Nodup := by
  induction ds generalizing dict with
  | nil => exact h
  | cons dd ds ih => exact ih (keys_nodup_dictAppend h dd (f dd))

theorem dictKeys_nodup_processChunk {dict : DayDict} (h : (dict.map Prod.fst).Nodup)
    (c : List Row) : ((processChunk dict c).map Prod.fst).Nodup :=
  dictKeys_nodup_foldAppend _ _ h

theorem dictKeys_nodup_foldChunks (cs : List (List Row)) {dict : DayDict}
    (h : (dict.map Prod.fst).Nodup) :
    ((cs.foldl processChunk dict).map Prod.fst).Nodup := by
  induction cs generalizing dict with
  | nil => exact h
  | cons c cs ih => exact ih (dictKeys_nodup_processChunk h c)

theorem dictKeys_nodup_aux (files : List CsvFile) {dict : DayDict}
    (h : (dict.map Prod.fst).Nodup) :
    ((files.foldl (fun acc f => f.chunks.foldl processChunk acc) dict).map
      Prod.fst).Nodup := by
  induction files generalizing dict with
  | nil => exact h
  | cons f files ih => exact ih (dictKeys_nodup_foldChunks f.chunks h)

/-- The `DayKeys` of `datos_por_dia` are pairwise distinct. -/
theorem dictKeys_nodup (files : List CsvFile) : (dictKeys files).Nodup :=
  dictKeys_nodup_aux files (by simp)

/-- Invariant of `datos_por_dia`: every group stored under a `DayKey` consists
of rows of that very day, and is internally sorted by time (each group is a
`groupby('Date')` slice of a chunk already sorted by `sort_values('Time')`). -/
def DictOK (dict : DayDict) : Prop :=
  ∀ e ∈ dict, ∀ g ∈ e.2, (∀ r ∈ g, r.time.date = e.1) ∧ List.Pairwise RowLe g

theorem DictOK_nil : DictOK [] := by intro e he; simp at he

theorem DictOK_dictAppend {dict : DayDict} (h : DictOK dict) {d : Date}
    {g : List Row} (hd : ∀ r ∈ g, r.time.date = d) (hs : List.Pairwise RowLe g) :
    DictOK (dictAppend dict d g) := by
  induction dict with
  | nil =>
    intro e he
    simp only [dictAppend, List.mem_singleton] at he
    subst he
    intro g' hg'
    simp only [List.mem_singleton] at hg'
    subst hg'
    exact ⟨hd, hs⟩
  | cons e' rest ih =>
    obtain ⟨k, gs⟩ := e'
    by_cases hk : k = d
    · subst hk
      intro e he
      simp only [dictAppend, eq_self_iff_true, if_true, List.mem_cons] at he
      rcases he with he | he
      · subst he
        intro g' hg'
        rcases List.mem_append.mp hg' with hg' | hg'
        · exact h (k, gs) (List.mem_cons_self _ _) g' hg'
        · simp only [List.mem_singleton] at hg'
          subst hg'
          exact ⟨hd, hs⟩
      · exact h e (List.mem_cons_of_mem _ he)
    · intro e he
      simp only [dictAppend, if_neg hk, List.mem_cons] at he
      rcases he with he | he
      · subst he
        exact h (k, gs) (List.mem_cons_self _ _)
      · exact ih (fun e' he' => h e' (List.mem_cons_of_mem _ he')) e he

theorem pairwise_sortRows (c : List Row) : List.Pairwise RowLe (sortRows c) :=
  List.sorted_insertionSort RowLe c

theorem DictOK_processChunk {dict : DayDict} (h : DictOK dict) (c : List Row) :
    DictOK (processChunk dict c) := by
  unfold processChunk
  have hgen : ∀ (ds : List Date) (dict' : DayDict), DictOK dict' →
      DictOK (ds.foldl
        (fun acc d => dictAppend acc d
          ((sortRows c).filter (fun r => decide (r.time.date = d)))) dict') := by
    intro ds
    induction ds with
    | nil => intro dict' h'; exact h'
    | cons d ds ih =>
      intro dict' h'
      refine ih _ (DictOK_dictAppend h' ?_ ?_)
      · intro r hr
        have := List.of_mem_filter hr
        simpa using this
      · exact (pairwise_sortRows c).sublist (List.filter_sublist _)
  exact hgen _ _ h

theorem DictOK_foldChunks (cs : List (List Row)) {dict : DayDict} (h : DictOK dict) :
    DictOK (cs.foldl processChunk dict) := by
  induction cs generalizing dict with
  | nil => exact h
  | cons c cs ih => exact ih (DictOK_processChunk h c)

theorem DictOK_buildDict (files : List CsvFile) : DictOK (buildDict files) := by
  unfold buildDict
  have hgen : ∀ (fs : List CsvFile) (dict : DayDict), DictOK dict →
      DictOK (fs.foldl (fun acc f => f.chunks.foldl processChunk acc) dict) := by
    intro fs
    induction fs with
    | nil => intro dict h; exact h
    | cons f fs ih => intro dict h; exact ih _ (DictOK_foldChunks f.chunks h)
  exact hgen files [] DictOK_nil

theorem mem_concatAll {xss : List (List α)} {x : α} :
    x ∈ concatAll xss ↔ ∃ xs ∈ xss, x ∈ xs := by
  induction xss with
  | nil => simp [concatAll_nil]
  | cons xs xss ih => simp [concatAll_cons, ih, List.mem_append]

/-- All rows stored under a `DayKey` are rows of that day. -/
theorem dictRows_dated (files : List CsvFile) (d : Date) :
    ∀ r ∈ dictRows (buildDict files) d, r.time.date = d := by
  intro r hr
  unfold dictRows at hr
  by_cases hmem : d ∈ (buildDict files).map Prod.fst
  · obtain ⟨g, hg, hrg⟩ := mem_concatAll.mp hr
    have hok := DictOK_buildDict files (d, dictGroups (buildDict files) d)
      (dictGroups_mem hmem) g hg
    exact hok.1 r hrg
  · rw [dictGroups_of_not_mem hmem] at hr
    simp [concatAll_nil] at hr

/-- The effect of one finalize-loop iteration on the input folder alone. -/
def areaStep (flag : Bool) (area : List CsvFile) (e : Date × List (List Row)) :
    List CsvFile :=
  match maxTime (concatAll e.2) with
  | none => replaceFile area ⟨dayFileName e.1, [concatAll e.2], false⟩
  | some t =>
    if esIncompleto t then
      (if flag then replaceFile area ⟨dayFileName e.1, [concatAll e.2], false⟩
       else removeName (replaceFile area ⟨dayFileName e.1, [concatAll e.2], false⟩)
         (dayFileName e.1))
    else replaceFile area ⟨dayFileName e.1, [concatAll e.2], false⟩

/-- The effect of one finalize-loop iteration on the `temp` folder alone. -/
def tempStep (tmp : List CsvFile) (e : Date × List (List Row)) : List CsvFile :=
  match maxTime (concatAll e.2) with
  | none => tmp
  | some t =>
    if esIncompleto t then replaceFile tmp ⟨tempFileName e.1, [concatAll e.2], false⟩
    else tmp

/-- The `to_csv` event one finalize-loop iteration performs. -/
def writeOf (e : Date × List (List Row)) : WriteEvent :=
  ⟨e.1, dayFileName e.1, concatAll e.2⟩

theorem finStep_decomp (flag : Bool) (acc : List CsvFile × List CsvFile × List WriteEvent)
    (e : Date × List (List Row)) :
    finStep flag acc e =
      (areaStep flag acc.1 e, tempStep acc.2.1 e, acc.2.2 ++ [writeOf e]) := by
  obtain ⟨a, t, w⟩ := acc
  rcases h : maxTime (concatAll e.2) with _ | tt
  · simp [finStep, areaStep, tempStep, writeOf, h]
  · by_cases hi : esIncompleto tt
    · simp [finStep, areaStep, tempStep, writeOf, h, hi]
    · simp [finStep, areaStep, tempStep, writeOf, h, hi]

theorem finFold_decomp (flag : Bool) (dict : DayDict) (a t : List CsvFile)
    (w : List WriteEvent) :
    dict.foldl (finStep flag) (a, t, w) =
      (dict.foldl (areaStep flag) a, dict.foldl tempStep t, w ++ dict.map writeOf) := by
  induction dict generalizing a t w with
  | nil => simp
  | cons e dict ih =>
    rw [List.foldl_cons, finStep_decomp, ih]
    simp

/-- On a run with at least one CSV file and no unreadable file, the engine
returns the three components of the finalize fold, with the consumed input
names deleted at the end. -/
theorem ordenar_run_eq (st : FsState) (flag : Bool)
    (hne : (moveTempIn st).input ≠ [])
    (hgood : ∀ f ∈ (moveTempIn st).input, f.bad = false) :
    ordenar_y_agrupado_por_dia st flag =
      ⟨true,
       ⟨eliminar_archivos_csv
          ((buildDict (moveTempIn st).input).foldl (areaStep flag) (moveTempIn st).input)
          ((moveTempIn st).input.map (fun f => f.name)),
        (buildDict (moveTempIn st).input).foldl tempStep []⟩,
       (buildDict (moveTempIn st).input).map writeOf⟩ := by
  have h1 : (moveTempIn st).input.isEmpty = false := by
    cases h : (moveTempIn st).input with
    | nil => exact absurd h hne
    | cons f fs => rfl
  have h2 : readAll (moveTempIn st).input = some (buildDict (moveTempIn st).input) := by
    unfold readAll
    rw [if_neg]
    intro hany
    obtain ⟨f, hf, hbad⟩ := List.any_eq_true.mp hany
    rw [hgood f hf] at hbad
    exact Bool.false_ne_true hbad
  unfold ordenar_y_agrupado_por_dia
  simp only [h1, Bool.false_eq_true, if_false, h2, finFold_decomp, List.nil_append]

theorem mem_replaceFile {folder : List CsvFile} {f g : CsvFile}
    (h : f ∈ replaceFile folder g) : f ∈ folder ∨ f = g := by
  rcases List.mem_append.mp h with h' | h'
  · exact Or.inl (List.mem_of_mem_filter h')
  · exact Or.inr (List.mem_singleton.mp h')

theorem self_mem_replaceFile (folder : List CsvFile) (g : CsvFile) :
    g ∈ replaceFile folder g :=
  List.mem_append.mpr (Or.inr (List.mem_singleton.mpr rfl))

theorem mem_replaceFile_of_ne {folder : List CsvFile} {f : CsvFile} (g : CsvFile)
    (h : f ∈ folder) (hne : f.name ≠ g.name) : f ∈ replaceFile folder g :=
  List.mem_append.mpr (Or.inl (List.mem_filter.mpr ⟨h, by simpa using hne⟩))

theorem names_nodup_replaceFile {folder : List CsvFile} (g : CsvFile)
    (h : (folder.map CsvFile.name).Nodup) :
    ((replaceFile folder g).map CsvFile.name).Nodup := by
  unfold replaceFile
  rw [List.map_append, List.map_singleton]
  rw [List.nodup_append]
  refine ⟨?_, List.nodup_singleton _, ?_⟩
  · exact h.sublist ((List.filter_sublist _).map _)
  · intro nm hnm
    obtain ⟨f, hf, hfn⟩ := List.mem_map.mp hnm
    have := List.mem_filter.mp hf
    intro hmem
    rw [List.mem_singleton] at hmem
    subst hmem
    have h2 := this.2
    rw [hfn] at h2
    simp at h2

theorem replaceFile_of_disjoint {a : List CsvFile} {f : CsvFile}
    (h : ∀ g ∈ a, g.name ≠ f.name) : replaceFile a f = a ++ [f] := by
  unfold replaceFile
  congr 1
  rw [List.filter_eq_self]
  intro g hg
  simpa using h g hg

/-- Moving files into a folder none of whose current names collide appends
them, as `shutil.move` does file by file. -/
theorem foldl_replaceFile_disjoint (l : List CsvFile) (a : List CsvFile)
    (h1 : ∀ f ∈ l, ∀ g ∈ a, g.name ≠ f.name)
    (h2 : (l.map CsvFile.name).Nodup) : l.foldl replaceFile a = a ++ l := by
  induction l generalizing a with
  | nil => simp
  | cons f l ih =>
    rw [List.foldl_cons, replaceFile_of_disjoint (h1 f (List.mem_cons_self _ _))]
    rw [List.map_cons, List.nodup_cons] at h2
    rw [ih (a ++ [f]) ?_ h2.2]
    · simp
    · intro f' hf' g hg
      rcases List.mem_append.mp hg with hg | hg
      · exact h1 f' (List.mem_cons_of_mem _ hf') g hg
      · rw [List.mem_singleton] at hg
        subst hg
        intro hEq
        exact h2.1 (hEq ▸ List.mem_map.mpr ⟨f', hf', rfl⟩)

theorem tempStep_eq_none {t0 : List CsvFile} {e : Date × List (List Row)}
    (hm : maxTime (concatAll e.2) = none) : tempStep t0 e = t0 := by
  simp [tempStep, hm]

theorem tempStep_eq_incomplete {t0 : List CsvFile} {e : Date × List (List Row)}
    {tt : Time} (hm : maxTime (concatAll e.2) = some tt)
    (hi : esIncompleto tt = true) :
    tempStep t0 e = replaceFile t0 ⟨tempFileName e.1, [concatAll e.2], false⟩ := by
  simp [tempStep, hm, hi]

theorem tempStep_eq_complete {t0 : List CsvFile} {e : Date × List (List Row)}
    {tt : Time} (hm : maxTime (concatAll e.2) = some tt)
    (hi : esIncompleto tt = false) : tempStep t0 e = t0 := by
  simp [tempStep, hm, hi]

/-- Every file in the `temp` folder at the end of a run is the continuation
record of one of the run's dictionary entries, and only an incomplete entry
leaves such a record. -/
theorem tempFold_mem (dict : DayDict) (t0 : List CsvFile) :
    ∀ f ∈ dict.foldl tempStep t0,
      f ∈ t0 ∨ ∃ e ∈ dict, f = ⟨tempFileName e.1, [concatAll e.2], false⟩ ∧
        ∃ tt, maxTime (concatAll e.2) = some tt ∧ esIncompleto tt = true := by
  induction dict generalizing t0 with
  | nil => intro f hf; exact Or.inl hf
  | cons e dict ih =>
    intro f hf
    rw [List.foldl_cons] at hf
    rcases ih (tempStep t0 e) f hf with h | h
    · rcases hm : maxTime (concatAll e.2) with _ | tt
      · rw [tempStep_eq_none hm] at h
        exact Or.inl h
      · cases hi : esIncompleto tt with
        | false =>
          rw [tempStep_eq_complete hm hi] at h
          exact Or.inl h
        | true =>
          rw [tempStep_eq_incomplete hm hi] at h
          rcases mem_replaceFile h with h' | h'
          · exact Or.inl h'
          · exact Or.inr ⟨e, List.mem_cons_self _ _, h', tt, hm, hi⟩
    · obtain ⟨e', he', hf'⟩ := h
      exact Or.inr ⟨e', List.mem_cons_of_mem _ he', hf'⟩

theorem tempFold_preserve (l : List (Date × List (List Row))) (t0 : List CsvFile)
    {f : CsvFile} (hf : f ∈ t0)
    (h : ∀ e ∈ l, tempFileName e.1 ≠ f.name) : f ∈ l.foldl tempStep t0 := by
  induction l generalizing t0 with
  | nil => exact hf
  | cons e l ih =>
    rw [List.foldl_cons]
    refine ih (tempStep t0 e) ?_ (fun e' he' => h e' (List.mem_cons_of_mem _ he'))
    rcases hm : maxTime (concatAll e.2) with _ | tt
    · rw [tempStep_eq_none hm]
      exact hf
    · cases hi : esIncompleto tt with
      | false =>
        rw [tempStep_eq_complete hm hi]
        exact hf
      | true =>
        rw [tempStep_eq_incomplete hm hi]
        exact mem_replaceFile_of_ne _ hf
          (fun hEq => h e (List.mem_cons_self _ _) hEq.symm)

/-- An incomplete day's continuation record is present in `temp` at the end of
the finalize loop (provided no later `DayKey` produces the same record name). -/
theorem tempFold_mem_of_incomplete {dict : DayDict} {d : Date}
    {gs : List (List Row)} (he : (d, gs) ∈ dict) {tt : Time}
    (hmax : maxTime (concatAll gs) = some tt) (hinc : esIncompleto tt = true)
    (hinj : ∀ e' ∈ dict, tempFileName e'.1 = tempFileName d → e'.1 = d)
    (hkeys : (dict.map Prod.fst).Nodup) :
    (⟨tempFileName d, [concatAll gs], false⟩ : CsvFile) ∈ dict.foldl tempStep [] := by
  obtain ⟨l1, l2, hdict⟩ := List.append_of_mem he
  subst hdict
  rw [List.foldl_append, List.foldl_cons]
  rw [tempStep_eq_incomplete (e := (d, gs)) hmax hinc]
  refine tempFold_preserve l2 _ (self_mem_replaceFile _ _) ?_
  intro e' he' hEq
  have hkey : e'.1 = d :=
    hinj e' (List.mem_append.mpr (Or.inr (List.mem_cons_of_mem _ he'))) hEq
  have : d ∉ (l2.map Prod.fst) := by
    rw [List.map_append, List.map_cons] at hkeys
    have h2 := List.Nodup.of_append_right hkeys
    rw [List.nodup_cons] at h2
    exact h2.1
  exact this (hkey ▸ List.mem_map.mpr ⟨e', he', rfl⟩)

theorem tempFold_names_nodup (dict : DayDict) (t0 : List CsvFile)
    (h : (t0.map CsvFile.name).Nodup) :
    (((dict.foldl tempStep t0)).map CsvFile.name).Nodup := by
  induction dict generalizing t0 with
  | nil => exact h
  | cons e dict ih =>
    rw [List.foldl_cons]
    refine ih _ ?_
    rcases hm : maxTime (concatAll e.2) with _ | tt
    · rw [tempStep_eq_none hm]
      exact h
    · cases hi : esIncompleto tt with
      | false =>
        rw [tempStep_eq_complete hm hi]
        exact h
      | true =>
        rw [tempStep_eq_incomplete hm hi]
        exact names_nodup_replaceFile _ h

theorem areaStep_eq_none {a : List CsvFile} {e : Date × List (List Row)} (flag : Bool)
    (hm : maxTime (concatAll e.2) = none) :
    areaStep flag a e = replaceFile a ⟨dayFileName e.1, [concatAll e.2], false⟩ := by
  simp [areaStep, hm]

theorem areaStep_eq_complete {a : List CsvFile} {e : Date × List (List Row)} (flag : Bool)
    {tt : Time} (hm : maxTime (concatAll e.2) = some tt) (hi : esIncompleto tt = false) :
    areaStep flag a e = replaceFile a ⟨dayFileName e.1, [concatAll e.2], false⟩ := by
  simp [areaStep, hm, hi]

theorem areaStep_eq_incomplete_keep {a : List CsvFile} {e : Date × List (List Row)}
    {tt : Time} (hm : maxTime (concatAll e.2) = some tt) (hi : esIncompleto tt = true) :
    areaStep true a e = replaceFile a ⟨dayFileName e.1, [concatAll e.2], false⟩ := by
  simp [areaStep, hm, hi]

theorem areaStep_eq_incomplete_del {a : List CsvFile} {e : Date × List (List Row)}
    {tt : Time} (hm : maxTime (concatAll e.2) = some tt) (hi : esIncompleto tt = true) :
    areaStep false a e =
      removeName (replaceFile a ⟨dayFileName e.1, [concatAll e.2], false⟩)
        (dayFileName e.1) := by
  simp [areaStep, hm, hi]

theorem mem_removeName {folder : List CsvFile} {nm : String} {f : CsvFile}
    (h : f ∈ removeName folder nm) : f ∈ folder ∧ f.name ≠ nm := by
  have h1 := List.mem_of_mem_filter h
  have h2 := List.of_mem_filter h
  simp only [decide_eq_true_eq] at h2
  exact ⟨h1, h2⟩

theorem mem_areaStep {flag : Bool} {a : List CsvFile} {e : Date × List (List Row)}
    {f : CsvFile} (h : f ∈ areaStep flag a e) :
    f ∈ a ∨ f = ⟨dayFileName e.1, [concatAll e.2], false⟩ := by
  rcases hm : maxTime (concatAll e.2) with _ | tt
  · rw [areaStep_eq_none flag hm] at h
    exact mem_replaceFile h
  · cases hi : esIncompleto tt with
    | false =>
      rw [areaStep_eq_complete flag hm hi] at h
      exact mem_replaceFile h
    | true =>
      cases flag with
      | true =>
        rw [areaStep_eq_incomplete_keep hm hi] at h
        exact mem_replaceFile h
      | false =>
        rw [areaStep_eq_incomplete_del hm hi] at h
        exact mem_replaceFile (mem_removeName h).1

/-- Once no file of a given name is present and no later day writes that name,
the finalize loop never reintroduces it. -/
theorem areaFold_no_name (flag : Bool) (l : DayDict) (a : List CsvFile) (nm : String)
    (ha : ∀ f ∈ a, f.name ≠ nm) (hl : ∀ e ∈ l, dayFileName e.1 ≠ nm) :
    ∀ f ∈ l.foldl (areaStep flag) a, f.name ≠ nm := by
  induction l generalizing a with
  | nil => exact ha
  | cons e l ih =>
    rw [List.foldl_cons]
    refine ih _ ?_ (fun e' he' => hl e' (List.mem_cons_of_mem _ he'))
    intro f hf
    rcases mem_areaStep hf with h | h
    · exact ha f h
    · rw [h]
      exact hl e (List.mem_cons_self _ _)

theorem dayRows_nil (d : Date) : dayRows [] d = [] := rfl

theorem dayRows_append (l1 l2 : List CsvFile) (d : Date) :
    dayRows (l1 ++ l2) d = dayRows l1 d ++ dayRows l2 d := by
  unfold dayRows
  rw [List.map_append, concatAll_append, List.filter_append]

theorem dayRows_cons (f : CsvFile) (l : List CsvFile) (d : Date) :
    dayRows (f :: l) d =
      (fileRows f).filter (fun r => decide (r.time.date = d)) ++ dayRows l d := by
  unfold dayRows
  rw [List.map_cons, concatAll_cons, List.filter_append]

theorem fileRows_single (nm : String) (rs : List Row) (b : Bool) :
    fileRows ⟨nm, [rs], b⟩ = rs := by
  simp [fileRows, concatAll_cons, concatAll_nil]

theorem dayRows_single_dated {rs : List Row} {d : Date}
    (h : ∀ r ∈ rs, r.time.date = d) (nm : String) (b : Bool) :
    dayRows [⟨nm, [rs], b⟩] d = rs := by
  unfold dayRows
  simp only [List.map_cons, List.map_nil, concatAll_cons, concatAll_nil,
    List.append_nil, fileRows_single]
  rw [List.filter_eq_self]
  intro r hr
  simpa using h r hr

theorem dayRows_single_other {rs : List Row} {d0 : Date}
    (h : ∀ r ∈ rs, r.time.date = d0) {d : Date} (hne : d0 ≠ d)
    (nm : String) (b : Bool) : dayRows [⟨nm, [rs], b⟩] d = [] := by
  unfold dayRows
  simp only [List.map_cons, List.map_nil, concatAll_cons, concatAll_nil,
    List.append_nil, fileRows_single]
  rw [List.filter_eq_nil_iff]
  intro r hr
  simp only [decide_eq_true_eq]
  intro hrd
  exact hne ((h r hr) ▸ hrd)

theorem mem_dictKeys_of_dayRows_ne_nil {files : List CsvFile} {d : Date}
    (h : dayRows files d ≠ []) : d ∈ dictKeys files := by
  by_contra hmem
  have h1 : dictRows (buildDict files) d = [] := by
    unfold dictRows
    rw [dictGroups_of_not_mem hmem, concatAll_nil]
  have h2 := dictRows_buildDict files d
  rw [h1] at h2
  exact h (h2.nil_eq.symm)

theorem writes_filter_of_not_mem {dict : DayDict} {d : Date}
    (h : d ∉ dict.map Prod.fst) :
    (dict.map writeOf).filter (fun w => decide (w.day = d)) = [] := by
  induction dict with
  | nil => rfl
  | cons e dict ih =>
    simp only [List.map_cons, List.mem_cons] at h
    push_neg at h
    rw [List.map_cons, List.filter_cons]
    have : decide ((writeOf e).day = d) = false := by
      simp [writeOf]
      exact fun hEq => h.1 hEq.symm
    rw [this]
    simp only [Bool.false_eq_true, if_false]
    exact ih h.2

/-- The engine writes exactly one day file per observed `DayKey`, holding the
concatenation of that day's accumulated groups, under the day's file name. -/
theorem writes_filter_eq {dict : DayDict} {d : Date}
    (hk : (dict.map Prod.fst).Nodup) (hmem : d ∈ dict.map Prod.fst) :
    (dict.map writeOf).filter (fun w => decide (w.day = d)) =
      [⟨d, dayFileName d, concatAll (dictGroups dict d)⟩] := by
  induction dict with
  | nil => simp at hmem
  | cons e dict ih =>
    rw [List.map_cons, List.nodup_cons] at hk
    by_cases hd : e.1 = d
    · rw [List.map_cons, List.filter_cons]
      have : decide ((writeOf e).day = d) = true := by simp [writeOf, hd]
      rw [this, if_pos rfl]
      have hnot : d ∉ dict.map Prod.fst := hd ▸ hk.1
      rw [writes_filter_of_not_mem hnot]
      have : dictGroups (e :: dict) d = e.2 := by
        obtain ⟨k, gs⟩ := e
        simp only at hd
        simp [dictGroups, hd]
      rw [this, writeOf, hd]
    · rw [List.map_cons, List.filter_cons]
      have : decide ((writeOf e).day = d) = false := by
        simp [writeOf]
        exact fun hEq => hd hEq
      rw [this]
      simp only [Bool.false_eq_true, if_false]
      have hmem' : d ∈ dict.map Prod.fst := by
        rw [List.map_cons] at hmem
        rcases List.mem_cons.mp hmem with h | h
        · exact absurd h.symm hd
        · exact h
      rw [ih hk.2 hmem']
      have : dictGroups (e :: dict) d = dictGroups dict d := by
        obtain ⟨k, gs⟩ := e
        simp only at hd
        simp [dictGroups, hd]
      rw [this]

theorem esIncompleto_eq_false_iff (t : Time) :
    esIncompleto t = false ↔ (t.hour = 23 ∧ t.minute = 59 ∧ t.second = 59) := by
  unfold esIncompleto
  simp [and_assoc]

/-- C2. The engine's completeness check: a `DayBucket` (a nonempty list of rows
all carrying the bucket's `DayKey` as date) is judged complete — that is,
`esIncompleto` of its maximum time is `false` — exactly when that maximum lies
in the final second of the `DayKey`: hour 23, minute 59, second 59, with the
sub-second `micros` field unconstrained. -/
theorem completeness_iff_final_second (rows : List Row) (d : Date) (t : Time)
    (hd : ∀ r ∈ rows, r.time.date = d) (hmax : maxTime rows = some t) :
    esIncompleto t = false ↔
      (t.date = d ∧ t.hour = 23 ∧ t.minute = 59 ∧ t.second = 59) := by
  have htd : t.date = d := by
    obtain ⟨hmem, _⟩ := maxTime_spec hmax
    obtain ⟨r, hr, hrt⟩ := List.mem_map.mp hmem
    rw [← hrt]
    exact hd r hr
  rw [esIncompleto_eq_false_iff]
  constructor
  · intro h
    exact ⟨htd, h⟩
  · intro h
    exact h.2

/-- C2, witnessed: a bucket topping out at `23:59:59.000` is complete, one
topping out at `23:59:58.999` is incomplete. -/
theorem completeness_iff_final_second_witness :
    esIncompleto ⟨⟨2024, 3, 2⟩, 23, 59, 59, 0⟩ = false ∧
    esIncompleto ⟨⟨2024, 3, 2⟩, 23, 59, 58, 999000⟩ = true := by
  constructor
  · exact (completeness_iff_final_second [⟨⟨⟨2024, 3, 2⟩, 23, 59, 59, 0⟩, 1⟩]
      ⟨2024, 3, 2⟩ ⟨⟨2024, 3, 2⟩, 23, 59, 59, 0⟩ (by decide) (by decide)).mpr
      (by decide)
  · have h := completeness_iff_final_second [⟨⟨⟨2024, 3, 2⟩, 23, 59, 58, 999000⟩, 1⟩]
      ⟨2024, 3, 2⟩ ⟨⟨2024, 3, 2⟩, 23, 59, 58, 999000⟩ (by decide) (by decide)
    cases hb : esIncompleto ⟨⟨2024, 3, 2⟩, 23, 59, 58, 999000⟩ with
    | false => exact absurd (h.mp hb) (by decide)
    | true => rfl

/-- C4, counterexample. A previously finalized-complete day output left in the
input area (here `2024-01-01.csv`, complete through 23:59:59) is not left
alone by a re-run with no new data: the engine lists it as an input, re-reads
it, rewrites it, and then `eliminar_archivos_csv` deletes it, leaving the
input area empty. -/
theorem rerun_deletes_finalized_output_counterexample :
    (ordenar_y_agrupado_por_dia
        ⟨[⟨"2024-01-01.csv", [[⟨⟨⟨2024, 1, 1⟩, 23, 59, 59, 0⟩, 7⟩]], false⟩], []⟩
        false).state.input = [] ∧
    (ordenar_y_agrupado_por_dia
        ⟨[⟨"2024-01-01.csv", [[⟨⟨⟨2024, 1, 1⟩, 23, 59, 59, 0⟩, 7⟩]], false⟩], []⟩
        false).writes.length = 1 ∧
    ([⟨"2024-01-01.csv", [[⟨⟨⟨2024, 1, 1⟩, 23, 59, 59, 0⟩, 7⟩]], false⟩] :
      List CsvFile) ≠ [] := by
  refine ⟨?_, ?_, ?_⟩
  · decide
  · decide
  · decide

/-- C4, amended. Re-running the engine is a no-op only when the input area
holds no CSV file at all and the Continuation Store is empty: then the state
is returned unchanged and nothing is written. (A finalized-complete day output
still present in the input area is instead treated as input and deleted at the
end of the run, as the counterexample shows.) -/
theorem rerun_noop_of_empty_input_and_store (st : FsState) (flag : Bool)
    (h1 : st.input = []) (h2 : st.temp = []) :
    ordenar_y_agrupado_por_dia st flag = ⟨true, st, []⟩ := by
  obtain ⟨inp, tmp⟩ := st
  simp only at h1 h2
  subst h1
  subst h2
  rfl

/-- C4 amended, witnessed at the empty state. -/
theorem rerun_noop_of_empty_input_and_store_witness :
    ordenar_y_agrupado_por_dia ⟨[], []⟩ false = ⟨true, ⟨[], []⟩, []⟩ :=
  rerun_noop_of_empty_input_and_store ⟨[], []⟩ false rfl rfl

/-- C8, counterexample. One unreadable file (`bad.csv`) aborts the whole
engine run: the sibling file `good.csv`, which holds a full day of rows, is
not processed (no day file is written at all), nothing is deleted, and the run
does not complete. -/
theorem chunk_failure_aborts_run_counterexample :
    (ordenar_y_agrupado_por_dia
        ⟨[⟨"good.csv", [[⟨⟨⟨2024, 1, 1⟩, 23, 59, 59, 0⟩, 1⟩]], false⟩,
          ⟨"bad.csv", [], true⟩], []⟩ false).ok = false ∧
    (ordenar_y_agrupado_por_dia
        ⟨[⟨"good.csv", [[⟨⟨⟨2024, 1, 1⟩, 23, 59, 59, 0⟩, 1⟩]], false⟩,
          ⟨"bad.csv", [], true⟩], []⟩ false).writes = [] ∧
    (ordenar_y_agrupado_por_dia
        ⟨[⟨"good.csv", [[⟨⟨⟨2024, 1, 1⟩, 23, 59, 59, 0⟩, 1⟩]], false⟩,
          ⟨"bad.csv", [], true⟩], []⟩ false).state.input.length = 2 := by
  refine ⟨?_, ?_, ?_⟩
  · decide
  · decide
  · decide

/-- With an unreadable file among the inputs, the engine stops at the read
phase: nothing is written and only the temp move has happened. -/
theorem ordenar_run_bad (st : FsState) (flag : Bool)
    (hbad : (moveTempIn st).input.any (fun f => f.bad) = true) :
    ordenar_y_agrupado_por_dia st flag = ⟨false, moveTempIn st, []⟩ := by
  have hne : (moveTempIn st).input.isEmpty = false := by
    cases h : (moveTempIn st).input with
    | nil => rw [h] at hbad; exact absurd hbad (by simp)
    | cons f fs => rfl
  have h2 : readAll (moveTempIn st).input = none := by
    unfold readAll
    rw [if_pos hbad]
  unfold ordenar_y_agrupado_por_dia
  simp only [hne, Bool.false_eq_true, if_false, h2]

/-- C8, amended. The chunk-reading loop has no exception handler: a chunk-read
failure in any one input file aborts the whole aggregation run. No day file is
written, no input is deleted, and the only state change is the move of the
continuation records into the input folder, which has already happened. -/
theorem chunk_failure_aborts_whole_run (st : FsState) (flag : Bool)
    (hbad : (moveTempIn st).input.any (fun f => f.bad) = true) :
    ordenar_y_agrupado_por_dia st flag = ⟨false, moveTempIn st, []⟩ :=
  ordenar_run_bad st flag hbad

/-- C8 amended, witnessed. -/
theorem chunk_failure_aborts_whole_run_witness :
    ordenar_y_agrupado_por_dia ⟨[⟨"bad.csv", [], true⟩], []⟩ false =
      ⟨false, moveTempIn ⟨[⟨"bad.csv", [], true⟩], []⟩, []⟩ :=
  chunk_failure_aborts_whole_run ⟨[⟨"bad.csv", [], true⟩], []⟩ false (by decide)

/-- Whether a chunk contributes at least one row of the given `DayKey`. -/
def hasDay (c : List Row) (d : Date) : Bool :=
  c.any (fun r => decide (r.time.date = d))

theorem hasDay_iff_mem_map {c : List Row} {d : Date} :
    hasDay c d = true ↔ d ∈ c.map (fun r => r.time.date) := by
  unfold hasDay
  rw [List.any_eq_true]
  constructor
  · rintro ⟨r, hr, hrd⟩
    simp only [decide_eq_true_eq] at hrd
    exact List.mem_map.mpr ⟨r, hr, hrd⟩
  · rintro h
    obtain ⟨r, hr, hrd⟩ := List.mem_map.mp h
    exact ⟨r, hr, by simpa using hrd⟩

theorem length_dictGroups_processChunk (dict : DayDict) (c : List Row) (d : Date) :
    (dictGroups (processChunk dict c) d).length =
      (dictGroups dict d).length + (if hasDay c d then 1 else 0) := by
  rw [dictGroups_processChunk, List.length_append]
  by_cases h : d ∈ c.map (fun r => r.time.date)
  · rw [if_pos h, if_pos (hasDay_iff_mem_map.mpr h)]
    rfl
  · rw [if_neg h, if_neg (fun h' => h (hasDay_iff_mem_map.mp h'))]
    rfl

theorem length_dictGroups_foldChunks (cs : List (List Row)) (dict : DayDict) (d : Date) :
    (dictGroups (cs.foldl processChunk dict) d).length =
      (dictGroups dict d).length + cs.countP (fun c => hasDay c d) := by
  induction cs generalizing dict with
  | nil => simp
  | cons c cs ih =>
    rw [List.foldl_cons, ih, length_dictGroups_processChunk, List.countP_cons]
    by_cases h : hasDay c d = true
    · rw [if_pos h]
      omega
    · rw [if_neg h]
      omega

/-- The number of groups accumulated for a `DayKey` equals the number of
chunks, across all files, that contain a row of that day. -/
theorem length_dictGroups_buildDict (files : List CsvFile) (d : Date) :
    (dictGroups (buildDict files) d).length =
      (concatAll (files.map CsvFile.chunks)).countP (fun c => hasDay c d) := by
  unfold buildDict
  have hgen : ∀ (fs : List CsvFile) (dict : DayDict),
      (dictGroups (fs.foldl (fun acc f => f.chunks.foldl processChunk acc) dict) d).length
        = (dictGroups dict d).length +
          (concatAll (fs.map CsvFile.chunks)).countP (fun c => hasDay c d) := by
    intro fs
    induction fs with
    | nil => intro dict; simp [concatAll_nil]
    | cons f fs ih =>
      intro dict
      rw [List.foldl_cons, ih, length_dictGroups_foldChunks, List.map_cons,
        concatAll_cons, List.countP_append]
      omega
  have := hgen files []
  simpa [dictGroups, concatAll_nil] using this

/-- The engine returns immediately when the input area has no CSV file. -/
theorem ordenar_run_empty (st : FsState) (flag : Bool)
    (h : (moveTempIn st).input = []) :
    ordenar_y_agrupado_por_dia st flag = ⟨true, moveTempIn st, []⟩ := by
  have h1 : (moveTempIn st).input.isEmpty = true := by rw [h]; rfl
  unfold ordenar_y_agrupado_por_dia
  simp only [h1, if_true]

/-- Executable check that a list of rows is in ascending time order. -/
def sortedByTime : List Row → Bool
  | [] => true
  | [_] => true
  | a :: b :: rest => Time.le a.time b.time && sortedByTime (b :: rest)

theorem sortedByTime_iff_chain' (rs : List Row) :
    sortedByTime rs = true ↔ List.Chain' RowLe rs := by
  induction rs with
  | nil => simp [sortedByTime, List.chain'_nil]
  | cons a rs ih =>
    cases rs with
    | nil => simp [sortedByTime]
    | cons b rest =>
      have hstep : sortedByTime (a :: b :: rest) =
          (Time.le a.time b.time && sortedByTime (b :: rest)) := rfl
      rw [List.chain'_cons, ← ih, hstep, Bool.and_eq_true]
      exact Iff.rfl

/-- C3, counterexample. Two input files contribute the same day's rows in
non-chronological order (`a.csv` holds the 12:00 row, `b.csv` the 01:00 row).
The written day file is the concatenation of the two groups in contribution
order — its rows are not sorted by time ascending. -/
theorem day_output_not_sorted_counterexample :
    (ordenar_y_agrupado_por_dia
        ⟨[⟨"a.csv", [[⟨⟨⟨2024, 1, 1⟩, 12, 0, 0, 0⟩, 1⟩]], false⟩,
          ⟨"b.csv", [[⟨⟨⟨2024, 1, 1⟩, 1, 0, 0, 0⟩, 2⟩]], false⟩], []⟩ false).writes.map
        WriteEvent.rows =
      [[⟨⟨⟨2024, 1, 1⟩, 12, 0, 0, 0⟩, 1⟩, ⟨⟨⟨2024, 1, 1⟩, 1, 0, 0, 0⟩, 2⟩]] ∧
    sortedByTime
        [⟨⟨⟨2024, 1, 1⟩, 12, 0, 0, 0⟩, 1⟩, ⟨⟨⟨2024, 1, 1⟩, 1, 0, 0, 0⟩, 2⟩] = false := by
  constructor
  · decide
  · decide

/-- C3, amended. Each day file the engine writes is the concatenation, in
contribution order, of per-chunk groups that are each internally sorted by
time; the whole file is guaranteed to be in ascending time order whenever at
most one chunk (across all input files) contributes rows to that `DayKey` —
but not in general, as the counterexample shows, because the concatenated
result is never re-sorted. -/
theorem day_output_sorted_of_single_chunk (st : FsState) (flag : Bool) (d : Date)
    (hcount : (concatAll ((moveTempIn st).input.map CsvFile.chunks)).countP
        (fun c => hasDay c d) ≤ 1) :
    ∀ w ∈ (ordenar_y_agrupado_por_dia st flag).writes, w.day = d →
      sortedByTime w.rows = true := by
  intro w hw hwd
  by_cases hne : (moveTempIn st).input = []
  · rw [ordenar_run_empty st flag hne] at hw
    simp at hw
  · by_cases hbad : (moveTempIn st).input.any (fun f => f.bad) = true
    · rw [ordenar_run_bad st flag hbad] at hw
      simp at hw
    · have hgood : ∀ f ∈ (moveTempIn st).input, f.bad = false := by
        intro f hf
        rcases hb : f.bad with _ | _
        · rfl
        · exact absurd (List.any_eq_true.mpr ⟨f, hf, hb⟩) hbad
      rw [ordenar_run_eq st flag hne hgood] at hw
      simp only at hw
      obtain ⟨e, he, hwe⟩ := List.mem_map.mp hw
      subst hwe
      have hday : e.1 = d := hwd
      have hkeys := dictKeys_nodup (moveTempIn st).input
      have hgroups : dictGroups (buildDict (moveTempIn st).input) e.1 = e.2 :=
        dictGroups_eq_of_mem hkeys he
      have hlen : e.2.length ≤ 1 := by
        have := length_dictGroups_buildDict (moveTempIn st).input d
        rw [← hday, hgroups] at this
        rw [this]
        rw [hday]
        exact hcount
      have hok := DictOK_buildDict (moveTempIn st).input e he
      cases hg2 : e.2 with
      | nil =>
        show sortedByTime (writeOf e).rows = true
        simp [writeOf, hg2, concatAll_nil, sortedByTime]
      | cons g gs =>
        cases gs with
        | nil =>
          show sortedByTime (writeOf e).rows = true
          have hpw : List.Pairwise RowLe g := (hok g (by rw [hg2]; simp)).2
          simp only [writeOf, hg2, concatAll_cons, concatAll_nil, List.append_nil]
          exact (sortedByTime_iff_chain' g).mpr hpw.chain'
        | cons g' gs' =>
          rw [hg2] at hlen
          simp at hlen

/-- C3 amended, witnessed: a single chunk holding a day's rows out of order is
sorted by the per-chunk `sort_values` before being written, so the written day
file is ascending. -/
theorem day_output_sorted_of_single_chunk_witness :
    sortedByTime [⟨⟨⟨2024, 1, 1⟩, 1, 0, 0, 0⟩, 2⟩,
      ⟨⟨⟨2024, 1, 1⟩, 12, 0, 0, 0⟩, 1⟩] = true :=
  day_output_sorted_of_single_chunk
    ⟨[⟨"h.csv", [[⟨⟨⟨2024, 1, 1⟩, 12, 0, 0, 0⟩, 1⟩,
        ⟨⟨⟨2024, 1, 1⟩, 1, 0, 0, 0⟩, 2⟩]], false⟩], []⟩ false ⟨2024, 1, 1⟩
    (by decide)
    ⟨⟨2024, 1, 1⟩, "2024-01-01.csv",
      [⟨⟨⟨2024, 1, 1⟩, 1, 0, 0, 0⟩, 2⟩, ⟨⟨⟨2024, 1, 1⟩, 12, 0, 0, 0⟩, 1⟩]⟩
    (by decide) rfl


/-- C5. For every `DayKey` observed in a run with readable inputs (and whose
day/continuation file names do not collide with those of other observed
`DayKeys`): (a) exactly one day file is written for it, named by the literal
ISO calendar date plus `.csv`, holding all of that day's rows (a permutation
of the day's input rows); (b) if the day's maximum time fails the 23:59:59
check, a continuation record named `<iso>_temp.csv` holding a copy of those
same rows is in the Continuation Store when the run ends, and unless the
`procesar_incompleto` option is chosen no file of the day's output name
survives in the input area; (c) if the check passes, no continuation record
is created for that `DayKey`. -/
theorem day_finalize_naming_and_continuation (st : FsState) (flag : Bool) (d : Date)
    (hgood : ∀ f ∈ (moveTempIn st).input, f.bad = false)
    (hobs : dayRows (moveTempIn st).input d ≠ [])
    (hinj : ∀ d' ∈ dictKeys (moveTempIn st).input,
      dayFileName d' = dayFileName d → d' = d)
    (hinjT : ∀ d' ∈ dictKeys (moveTempIn st).input,
      tempFileName d' = tempFileName d → d' = d) :
    ((ordenar_y_agrupado_por_dia st flag).writes.filter
        (fun w => decide (w.day = d))) =
      [⟨d, isoDate d ++ ".csv", dictRows (buildDict (moveTempIn st).input) d⟩] ∧
    (dictRows (buildDict (moveTempIn st).input) d).Perm
      (dayRows (moveTempIn st).input d) ∧
    (∀ tt, maxTime (dayRows (moveTempIn st).input d) = some tt →
      esIncompleto tt = true →
      (⟨isoDate d ++ "_temp.csv", [dictRows (buildDict (moveTempIn st).input) d],
          false⟩ : CsvFile) ∈ (ordenar_y_agrupado_por_dia st flag).state.temp ∧
      (flag = false → ∀ f ∈ (ordenar_y_agrupado_por_dia st flag).state.input,
        f.name ≠ dayFileName d)) ∧
    (∀ tt, maxTime (dayRows (moveTempIn st).input d) = some tt →
      esIncompleto tt = false →
      ∀ g ∈ (ordenar_y_agrupado_por_dia st flag).state.temp,
        g.name ≠ tempFileName d) := by
  have hne : (moveTempIn st).input ≠ [] := by
    intro h
    apply hobs
    rw [h]
    rfl
  have hrun := ordenar_run_eq st flag hne hgood
  have hperm := dictRows_buildDict (moveTempIn st).input d
  have hkey : d ∈ dictKeys (moveTempIn st).input :=
    mem_dictKeys_of_dayRows_ne_nil hobs
  have hkeys : ((buildDict (moveTempIn st).input).map Prod.fst).Nodup :=
    dictKeys_nodup (moveTempIn st).input
  have hmemE : (d, dictGroups (buildDict (moveTempIn st).input) d) ∈
      buildDict (moveTempIn st).input := dictGroups_mem hkey
  refine ⟨?_, hperm, ?_, ?_⟩
  · rw [hrun]
    show ((buildDict (moveTempIn st).input).map writeOf).filter _ = _
    rw [writes_filter_eq hkeys hkey]
    rfl
  · intro tt hmax hinc
    have hmax' : maxTime (concatAll
        (dictGroups (buildDict (moveTempIn st).input) d)) = some tt := by
      show maxTime (dictRows (buildDict (moveTempIn st).input) d) = some tt
      rw [maxTime_perm hperm]
      exact hmax
    constructor
    · rw [hrun]
      show _ ∈ (buildDict (moveTempIn st).input).foldl tempStep []
      refine tempFold_mem_of_incomplete hmemE hmax' hinc ?_ hkeys
      intro e' he' hEq
      exact hinjT e'.1 (List.mem_map.mpr ⟨e', he', rfl⟩) hEq
    · intro hflag f hf
      rw [hrun] at hf
      have hf' : f ∈ (buildDict (moveTempIn st).input).foldl (areaStep flag)
          (moveTempIn st).input := List.mem_of_mem_filter hf
      subst hflag
      obtain ⟨l1, l2, hdict⟩ := List.append_of_mem hmemE
      rw [hdict, List.foldl_append, List.foldl_cons] at hf'
      have hkeys' : ((l1 ++ (d, dictGroups (buildDict (moveTempIn st).input) d)
          :: l2).map Prod.fst).Nodup := by
        rw [← hdict]
        exact hkeys
      have hd2 : d ∉ l2.map Prod.fst := by
        rw [List.map_append, List.map_cons] at hkeys'
        have h2 := List.Nodup.of_append_right hkeys'
        rw [List.nodup_cons] at h2
        exact h2.1
      refine areaFold_no_name false l2 _ (dayFileName d) ?_ ?_ f hf'
      · intro f' hf''
        rw [areaStep_eq_incomplete_del
          (e := (d, dictGroups (buildDict (moveTempIn st).input) d))
          hmax' hinc] at hf''
        exact (mem_removeName hf'').2
      · intro e' he' hEq
        have hkey' : e'.1 ∈ dictKeys (moveTempIn st).input := by
          show e'.1 ∈ (buildDict (moveTempIn st).input).map Prod.fst
          rw [hdict]
          exact List.mem_map.mpr
            ⟨e', List.mem_append.mpr (Or.inr (List.mem_cons_of_mem _ he')), rfl⟩
        have heq2 : e'.1 = d := hinj e'.1 hkey' hEq
        exact hd2 (heq2 ▸ List.mem_map.mpr ⟨e', he', rfl⟩)
  · intro tt hmax hcomp g hg
    rw [hrun] at hg
    have hg' := tempFold_mem _ [] g hg
    rcases hg' with h | ⟨e', he', hge, tt', hm', hi'⟩
    · simp at h
    · intro hEq
      have hEq' : tempFileName e'.1 = tempFileName d := by
        rw [hge] at hEq
        exact hEq
      have hkey' : e'.1 = d := hinjT e'.1 (List.mem_map.mpr ⟨e', he', rfl⟩) hEq'
      have he2 : e'.2 = dictGroups (buildDict (moveTempIn st).input) e'.1 :=
        (dictGroups_eq_of_mem hkeys he').symm
      rw [hkey'] at he2
      have hmax' : maxTime (concatAll e'.2) = some tt := by
        rw [he2]
        show maxTime (dictRows (buildDict (moveTempIn st).input) d) = some tt
        rw [maxTime_perm hperm]
        exact hmax
      rw [hm'] at hmax'
      have htt : tt' = tt := Option.some.inj hmax'
      rw [htt, hcomp] at hi'
      exact Bool.false_ne_true hi'

/-- C5, witnessed: a run whose single input holds rows up to 10:00:00.5 of
2024-01-01 writes the day file `2024-01-01.csv` with the day's rows sorted
into it, and leaves a continuation record `2024-01-01_temp.csv` holding the
same rows. -/
theorem day_finalize_naming_and_continuation_witness :
    ((ordenar_y_agrupado_por_dia
        ⟨[⟨"h1.csv", [[⟨⟨⟨2024, 1, 1⟩, 10, 0, 0, 500000⟩, 11⟩,
            ⟨⟨⟨2024, 1, 1⟩, 9, 30, 0, 0⟩, 10⟩]], false⟩], []⟩ false).writes.filter
        (fun w => decide (w.day = (⟨2024, 1, 1⟩ : Date)))) =
      [⟨⟨2024, 1, 1⟩, "2024-01-01.csv",
        [⟨⟨⟨2024, 1, 1⟩, 9, 30, 0, 0⟩, 10⟩,
         ⟨⟨⟨2024, 1, 1⟩, 10, 0, 0, 500000⟩, 11⟩]⟩] ∧
    (⟨"2024-01-01_temp.csv",
        [[⟨⟨⟨2024, 1, 1⟩, 9, 30, 0, 0⟩, 10⟩,
          ⟨⟨⟨2024, 1, 1⟩, 10, 0, 0, 500000⟩, 11⟩]], false⟩ : CsvFile) ∈
      (ordenar_y_agrupado_por_dia
        ⟨[⟨"h1.csv", [[⟨⟨⟨2024, 1, 1⟩, 10, 0, 0, 500000⟩, 11⟩,
            ⟨⟨⟨2024, 1, 1⟩, 9, 30, 0, 0⟩, 10⟩]], false⟩], []⟩ false).state.temp := by
  have h := day_finalize_naming_and_continuation
    ⟨[⟨"h1.csv", [[⟨⟨⟨2024, 1, 1⟩, 10, 0, 0, 500000⟩, 11⟩,
        ⟨⟨⟨2024, 1, 1⟩, 9, 30, 0, 0⟩, 10⟩]], false⟩], []⟩ false ⟨2024, 1, 1⟩
    (by decide) (by decide) (by decide) (by decide)
  obtain ⟨ha, hperm, hb, hc⟩ := h
  constructor
  · rw [ha]
    decide
  · exact (hb ⟨⟨2024, 1, 1⟩, 10, 0, 0, 500000⟩ (by decide) (by decide)).1

theorem entryRows_dated {files : List CsvFile} {e : Date × List (List Row)}
    (he : e ∈ buildDict files) : ∀ r ∈ concatAll e.2, r.time.date = e.1 := by
  intro r hr
  obtain ⟨g, hg, hrg⟩ := mem_concatAll.mp hr
  exact (DictOK_buildDict files e he g hg).1 r hrg

theorem dayRows_eq_nil_of_all {l : List CsvFile} {d : Date}
    (h : ∀ f ∈ l, dayRows [f] d = []) : dayRows l d = [] := by
  induction l with
  | nil => rfl
  | cons f l ih =>
    rw [show f :: l = [f] ++ l from rfl, dayRows_append,
      h f (by simp), ih (fun g hg => h g (by simp [hg]))]
    rfl

/-- If exactly one file of a folder contributes rows of a `DayKey` (every
other file contributes none), the folder's rows for that day are that file's
rows. -/
theorem dayRows_of_unique_contributor (l : List CsvFile) (rec : CsvFile) (d : Date)
    (hmem : rec ∈ l) (hnodup : (l.map CsvFile.name).Nodup)
    (hothers : ∀ f ∈ l, f = rec ∨ dayRows [f] d = []) :
    dayRows l d = dayRows [rec] d := by
  induction l with
  | nil => simp at hmem
  | cons f l ih =>
    rw [List.map_cons, List.nodup_cons] at hnodup
    rcases List.mem_cons.mp hmem with h | h
    · have htail : dayRows l d = [] := by
        refine dayRows_eq_nil_of_all ?_
        intro g hg
        rcases hothers g (List.mem_cons_of_mem _ hg) with hge | hge
        · exfalso
          apply hnodup.1
          rw [← h, ← hge]
          exact List.mem_map.mpr ⟨g, hg, rfl⟩
        · exact hge
      rw [show f :: l = [f] ++ l from rfl, dayRows_append, htail,
        List.append_nil, ← h]
    · have hfnil : dayRows [f] d = [] := by
        rcases hothers f (List.mem_cons_self _ _) with hfe | hfe
        · exfalso
          apply hnodup.1
          rw [hfe]
          exact List.mem_map.mpr ⟨rec, h, rfl⟩
        · exact hfe
      rw [show f :: l = [f] ++ l from rfl, dayRows_append, hfnil,
        List.nil_append]
      exact ih h hnodup.2 (fun g hg => hothers g (List.mem_cons_of_mem _ hg))

/-- C1. A day split across two successive runs is merged without loss or
duplication. Run 1 starts from an empty Continuation Store with the default
policy (provisional outputs deleted) and finds rows of `DayKey D` that do not
reach 23:59:59; run 2 receives the new files (the previous run's outputs
having been consumed by the MAT export step) together with the Continuation
Store run 1 left, its file names clashing with no continuation record. Then
run 2 writes exactly one day file for `D`, and its rows are a permutation of
the two runs' rows for `D` together — the union, each row exactly once, so no
row is lost or duplicated. -/
theorem two_run_continuation_union (files1 files2 : List CsvFile) (D : Date)
    (flag2 : Bool)
    (h1 : ∀ f ∈ files1, f.bad = false)
    (h2 : ∀ f ∈ files2, f.bad = false)
    (hobs : dayRows files1 D ≠ [])
    (hinc : ∃ t, maxTime (dayRows files1 D) = some t ∧ esIncompleto t = true)
    (hinjT : ∀ d' ∈ dictKeys files1, tempFileName d' = tempFileName D → d' = D)
    (hnc : ∀ f ∈ files2,
      ∀ g ∈ (ordenar_y_agrupado_por_dia ⟨files1, []⟩ false).state.temp,
      f.name ≠ g.name) :
    ∃ rs, dayWrites (ordenar_y_agrupado_por_dia
        ⟨files2, (ordenar_y_agrupado_por_dia ⟨files1, []⟩ false).state.temp⟩
        flag2) D = [rs] ∧
      rs.Perm (dayRows files1 D ++ dayRows files2 D) ∧
      ((dayRows files1 D ++ dayRows files2 D).Nodup → rs.Nodup) := by
  -- run 1
  have hne1 : (moveTempIn ⟨files1, []⟩).input ≠ [] := by
    show files1 ≠ []
    intro h
    apply hobs
    rw [h]
    rfl
  have hrun1 := ordenar_run_eq ⟨files1, []⟩ false hne1 h1
  have hperm1 : (dictRows (buildDict files1) D).Perm (dayRows files1 D) :=
    dictRows_buildDict files1 D
  have hkeys1 : ((buildDict files1).map Prod.fst).Nodup := dictKeys_nodup files1
  have hkey1 : D ∈ (buildDict files1).map Prod.fst :=
    mem_dictKeys_of_dayRows_ne_nil hobs
  have hmemE1 : (D, dictGroups (buildDict files1) D) ∈ buildDict files1 :=
    dictGroups_mem hkey1
  obtain ⟨t1, hmax1, hi1⟩ := hinc
  have hmax1' : maxTime (concatAll (dictGroups (buildDict files1) D)) = some t1 := by
    show maxTime (dictRows (buildDict files1) D) = some t1
    rw [maxTime_perm hperm1]
    exact hmax1
  have htemp1 : (ordenar_y_agrupado_por_dia ⟨files1, []⟩ false).state.temp =
      (buildDict files1).foldl tempStep [] := by
    rw [hrun1]
    rfl
  have hDrec : (⟨tempFileName D, [concatAll (dictGroups (buildDict files1) D)],
      false⟩ : CsvFile) ∈ (ordenar_y_agrupado_por_dia ⟨files1, []⟩ false).state.temp := by
    rw [htemp1]
    exact tempFold_mem_of_incomplete hmemE1 hmax1' hi1
      (fun e' he' hEq => hinjT e'.1 (List.mem_map.mpr ⟨e', he', rfl⟩) hEq) hkeys1
  have htnodup : (((ordenar_y_agrupado_por_dia ⟨files1, []⟩
      false).state.temp).map CsvFile.name).Nodup := by
    rw [htemp1]
    exact tempFold_names_nodup _ [] (by simp)
  have htmem : ∀ f ∈ (ordenar_y_agrupado_por_dia ⟨files1, []⟩ false).state.temp,
      ∃ e ∈ buildDict files1,
        f = ⟨tempFileName e.1, [concatAll e.2], false⟩ := by
    intro f hf
    rw [htemp1] at hf
    rcases tempFold_mem _ [] f hf with h | ⟨e, he, hfe, _⟩
    · simp at h
    · exact ⟨e, he, hfe⟩
  -- the continuation rows are exactly run 1's rows for D
  have htday : dayRows ((ordenar_y_agrupado_por_dia ⟨files1, []⟩
      false).state.temp) D = concatAll (dictGroups (buildDict files1) D) := by
    rw [dayRows_of_unique_contributor _
      ⟨tempFileName D, [concatAll (dictGroups (buildDict files1) D)], false⟩ D
      hDrec htnodup ?_]
    · exact dayRows_single_dated
        (fun r hr => entryRows_dated hmemE1 r hr) _ _
    · intro f hf
      obtain ⟨e, he, hfe⟩ := htmem f hf
      by_cases hkey : e.1 = D
      · left
        have he2 : e.2 = dictGroups (buildDict files1) e.1 :=
          (dictGroups_eq_of_mem hkeys1 he).symm
        rw [hfe, he2, hkey]
      · right
        rw [hfe]
        exact dayRows_single_other (entryRows_dated he) hkey _ _
  -- run 2
  have hmove2 : (moveTempIn ⟨files2, (ordenar_y_agrupado_por_dia ⟨files1, []⟩
      false).state.temp⟩).input =
      files2 ++ (ordenar_y_agrupado_por_dia ⟨files1, []⟩ false).state.temp := by
    show ((ordenar_y_agrupado_por_dia ⟨files1, []⟩
      false).state.temp).foldl replaceFile files2 = _
    refine foldl_replaceFile_disjoint _ files2 ?_ htnodup
    intro f hf g hg
    exact hnc g hg f hf
  have hne2 : (moveTempIn ⟨files2, (ordenar_y_agrupado_por_dia ⟨files1, []⟩
      false).state.temp⟩).input ≠ [] := by
    rw [hmove2]
    intro h
    rw [List.append_eq_nil] at h
    rw [h.2] at hDrec
    simp at hDrec
  have hgood2 : ∀ f ∈ (moveTempIn ⟨files2, (ordenar_y_agrupado_por_dia
      ⟨files1, []⟩ false).state.temp⟩).input, f.bad = false := by
    rw [hmove2]
    intro f hf
    rcases List.mem_append.mp hf with h | h
    · exact h2 f h
    · obtain ⟨e, _, hfe⟩ := htmem f h
      rw [hfe]
  have hrun2 := ordenar_run_eq ⟨files2, (ordenar_y_agrupado_por_dia ⟨files1, []⟩
      false).state.temp⟩ flag2 hne2 hgood2
  rw [hmove2] at hrun2
  -- rows of D in run 2's input
  have hday2 : dayRows (files2 ++ (ordenar_y_agrupado_por_dia ⟨files1, []⟩
      false).state.temp) D =
      dayRows files2 D ++ concatAll (dictGroups (buildDict files1) D) := by
    rw [dayRows_append, htday]
  have hperm2 : (dictRows (buildDict (files2 ++ (ordenar_y_agrupado_por_dia
      ⟨files1, []⟩ false).state.temp)) D).Perm
      (dayRows files1 D ++ dayRows files2 D) := by
    refine (dictRows_buildDict _ D).trans ?_
    rw [hday2]
    refine List.Perm.trans ?_ (List.perm_append_comm)
    exact List.Perm.append_left _ hperm1
  have hne2' : dayRows (files2 ++ (ordenar_y_agrupado_por_dia ⟨files1, []⟩
      false).state.temp) D ≠ [] := by
    rw [hday2]
    intro h
    rw [List.append_eq_nil] at h
    apply hobs
    have h2' : dictRows (buildDict files1) D = [] := h.2
    rw [h2'] at hperm1
    exact hperm1.nil_eq.symm
  have hkey2 : D ∈ (buildDict (files2 ++ (ordenar_y_agrupado_por_dia ⟨files1, []⟩
      false).state.temp)).map Prod.fst := mem_dictKeys_of_dayRows_ne_nil hne2'
  have hkeys2 := dictKeys_nodup (files2 ++ (ordenar_y_agrupado_por_dia
      ⟨files1, []⟩ false).state.temp)
  refine ⟨dictRows (buildDict (files2 ++ (ordenar_y_agrupado_por_dia ⟨files1, []⟩
      false).state.temp)) D, ?_, hperm2, fun hnd => (hperm2.nodup_iff).mpr hnd⟩
  unfold dayWrites
  rw [hrun2]
  show (((buildDict _).map writeOf).filter _).map WriteEvent.rows = _
  rw [writes_filter_eq hkeys2 hkey2]
  rfl

/-- C1, witnessed: run 1 sees 2024-01-01 up to 10:00:00.5 (incomplete), run 2
supplies the 23:59:59 row; the merged day file holds the union of both runs'
rows with no duplicate. -/
theorem two_run_continuation_union_witness :
    ∃ rs, dayWrites (ordenar_y_agrupado_por_dia
        ⟨[⟨"h2.csv", [[⟨⟨⟨2024, 1, 1⟩, 23, 59, 59, 123⟩, 12⟩]], false⟩],
         (ordenar_y_agrupado_por_dia
            ⟨[⟨"h1.csv", [[⟨⟨⟨2024, 1, 1⟩, 10, 0, 0, 500000⟩, 11⟩,
                ⟨⟨⟨2024, 1, 1⟩, 9, 30, 0, 0⟩, 10⟩]], false⟩], []⟩
            false).state.temp⟩ false) ⟨2024, 1, 1⟩ = [rs] ∧
      rs.Perm (dayRows [⟨"h1.csv", [[⟨⟨⟨2024, 1, 1⟩, 10, 0, 0, 500000⟩, 11⟩,
            ⟨⟨⟨2024, 1, 1⟩, 9, 30, 0, 0⟩, 10⟩]], false⟩] ⟨2024, 1, 1⟩ ++
          dayRows [⟨"h2.csv", [[⟨⟨⟨2024, 1, 1⟩, 23, 59, 59, 123⟩, 12⟩]], false⟩]
            ⟨2024, 1, 1⟩) ∧
      ((dayRows [⟨"h1.csv", [[⟨⟨⟨2024, 1, 1⟩, 10, 0, 0, 500000⟩, 11⟩,
            ⟨⟨⟨2024, 1, 1⟩, 9, 30, 0, 0⟩, 10⟩]], false⟩] ⟨2024, 1, 1⟩ ++
          dayRows [⟨"h2.csv", [[⟨⟨⟨2024, 1, 1⟩, 23, 59, 59, 123⟩, 12⟩]], false⟩]
            ⟨2024, 1, 1⟩).Nodup → rs.Nodup) :=
  two_run_continuation_union
    [⟨"h1.csv", [[⟨⟨⟨2024, 1, 1⟩, 10, 0, 0, 500000⟩, 11⟩,
        ⟨⟨⟨2024, 1, 1⟩, 9, 30, 0, 0⟩, 10⟩]], false⟩]
    [⟨"h2.csv", [[⟨⟨⟨2024, 1, 1⟩, 23, 59, 59, 123⟩, 12⟩]], false⟩]
    ⟨2024, 1, 1⟩ false (by decide) (by decide) (by decide)
    ⟨⟨⟨2024, 1, 1⟩, 10, 0, 0, 500000⟩, by decide, by decide⟩
    (by decide) (by decide)

/-- A named TDMS channel as `convertir_tdms_a_csv` sees it: its name and its
raw values. -/
structure Channel where
  name : String
  data : List String
deriving DecidableEq

/-- A converted column: either parsed-and-shifted timestamps (in microseconds,
`none` for a value `pd.to_datetime(..., errors='coerce')` turned into `NaT`)
or the unmodified raw values. -/
inductive ColData where
  | times (ts : List (Option Int))
  | raws (vs : List String)
deriving DecidableEq

def timeName : String := "time"

def datePre : String := "date"

/-- `str.lower()` on the channel name, character by character. -/
def lowerChars (nm : String) : List Char := nm.data.map Char.toLower

/-- `canal.name.lower() == "time" or canal.name.lower().startswith("date")`. -/
def isTimeChannel (nm : String) : Bool :=
  lowerChars nm == timeName.data || datePre.data.isPrefixOf (lowerChars nm)

/-- `pd.Timedelta(hours=3)` in microseconds. -/
def threeHours : Int := 10800000000

/-- The per-channel conversion: a time/date channel is parsed by the external
pandas parser (modelled by the abstract `parse`, which returns `none` where
`errors='coerce'` would give `NaT`) and shifted back by exactly 3 hours;
every other channel is stored unmodified. -/
def convertData (parse : String → Option Int) (c : Channel) : ColData :=
  if isTimeChannel c.name then
    ColData.times (c.data.map (fun s => (parse s).map (fun t => t - threeHours)))
  else ColData.raws c.data

/-- Observable outcome of one `convertir_tdms_a_csv` call: the CSV table if
one was confirmed written, whether the source TDMS and its `_index` sidecar
were deleted, and whether a failure was printed. -/
structure ConvOutcome where
  written : Option (List (String × ColData))
  sourceDeleted : Bool
  indexDeleted : Bool
  failureLogged : Bool
deriving DecidableEq

/-- `convertir_tdms_a_csv`: read the TDMS (`readResult = none` models every
exception the `try` catches — unreadable file, missing group), convert the
channels, write the CSV (`writeOk` models whether the file materialized), and
delete the source (plus its `_index` file when present) only after the CSV
exists; any failure is caught, printed and leaves the source in place. -/
def convertir_tdms_a_csv (parse : String → Option Int)
    (readResult : Option (List Channel)) (hasIndex : Bool) (writeOk : Bool) :
    ConvOutcome :=
  match readResult with
  | none => ⟨none, false, false, true⟩
  | some chans =>
    if writeOk then
      ⟨some (chans.map (fun c => (c.name, convertData parse c))), true, hasIndex,
        false⟩
    else ⟨none, false, false, true⟩

/-- One TDMS file submitted to the pool, by its observable behavior. -/
structure TdmsSpec where
  readResult : Option (List Channel)
  hasIndex : Bool
  writeOk : Bool
deriving DecidableEq

/-- `procesar_archivos_tdms_paralelo`: every file is submitted to the pool and
produces one outcome; `convertir_tdms_a_csv` catches its own exceptions, so no
file's failure prevents any other file from being processed. -/
def procesar_archivos_tdms_paralelo (parse : String → Option Int)
    (files : List TdmsSpec) : List ConvOutcome :=
  files.map (fun f => convertir_tdms_a_csv parse f.readResult f.hasIndex f.writeOk)

/-- C6. The Conversion Stage deletes a source measurement file (and its
sidecar index) only after the converted table is confirmed written: a deleted
source implies a written table, and a failed read or failed write leaves the
source and sidecar in place with nothing written. -/
theorem source_deleted_only_after_write (parse : String → Option Int)
    (readResult : Option (List Channel)) (hasIndex : Bool) (writeOk : Bool) :
    ((convertir_tdms_a_csv parse readResult hasIndex writeOk).sourceDeleted = true →
      (convertir_tdms_a_csv parse readResult hasIndex writeOk).written.isSome = true) ∧
    (readResult = none ∨ writeOk = false →
      (convertir_tdms_a_csv parse readResult hasIndex writeOk).sourceDeleted = false ∧
      (convertir_tdms_a_csv parse readResult hasIndex writeOk).written = none ∧
      (convertir_tdms_a_csv parse readResult hasIndex writeOk).indexDeleted = false) := by
  cases readResult with
  | none => simp [convertir_tdms_a_csv]
  | some chans =>
    cases writeOk with
    | false => simp [convertir_tdms_a_csv]
    | true => simp [convertir_tdms_a_csv]

/-- C6, witnessed: a successful conversion has a written table, a failed read
leaves the source undeleted. -/
theorem source_deleted_only_after_write_witness :
    (convertir_tdms_a_csv (fun _ => none) (some [⟨"Volt", ["1"]⟩]) true
      true).written.isSome = true ∧
    (convertir_tdms_a_csv (fun _ => none) none true true).sourceDeleted = false :=
  ⟨(source_deleted_only_after_write (fun _ => none) (some [⟨"Volt", ["1"]⟩]) true
      true).1 (by rfl),
   ((source_deleted_only_after_write (fun _ => none) none true true).2
      (Or.inl rfl)).1⟩

/-- The failure messages one `convertir_tdms_a_csv` call prints. A failed
read (or any other exception the `try` catches) reaches the handler, which
prints the exception's text alone — the source file's path is not part of the
message. A write that does not materialize prints the message naming the CSV
path (`csvPath` stands for `ruta_archivo_csv`; a `to_csv` that raises instead
lands in the generic handler). A successful conversion prints no failure.
The pool's own handler, which would print `Error procesando {archivo}` with
the file identifier, only runs when a task raises, and `convertir_tdms_a_csv`
never raises — its whole body sits inside `try/except Exception` — so these
are the only failure messages ever printed for a file. -/
def convertir_log (excText : String) (csvPath : String)
    (readResult : Option (List Channel)) (writeOk : Bool) : List String :=
  match readResult with
  | none => ["Error al convertir TDMS a CSV: " ++ excText]
  | some _ =>
    if writeOk then []
    else ["Error: No se pudo crear el archivo CSV " ++ csvPath ++
      ". TDMS no eliminado."]

/-- Whether `needle` occurs contiguously inside `hay`. -/
def containsChars (needle : List Char) : List Char → Bool
  | [] => needle.isEmpty
  | c :: rest => needle.isPrefixOf (c :: rest) || containsChars needle rest

/-- C7, counterexample. For a corrupted measurement file — source path
`file4.tdms`, read failing with a typical nptdms exception text — the only
message the Conversion Stage prints is the handler's text built from the
exception alone: the file's identifier appears nowhere in it, against the
claim that the failure is logged with that file's identifier. The failure is
still flagged. -/
theorem conversion_failure_log_counterexample :
    convertir_log "Probably not a TDMS file" "salida/file4.csv" none true =
      ["Error al convertir TDMS a CSV: Probably not a TDMS file"] ∧
    containsChars ("file4.tdms".data)
      ("Error al convertir TDMS a CSV: Probably not a TDMS file").data = false ∧
    (convertir_tdms_a_csv (fun _ => none) none true true).failureLogged = true := by
  refine ⟨?_, ?_, ?_⟩
  · decide
  · decide
  · decide

/-- C7, amended. A failure to convert a single measurement file is caught and
logged — but only with the exception's own text, not with the file's
identifier (the identifier-bearing handler of the pool is unreachable because
`convertir_tdms_a_csv` catches its own exceptions) — it does not abort the
sibling conversions or the pool, and it leaves the failing source in place:
with the inputs split as `pre ++ bad :: post` where only `bad` fails to read,
the stage yields one outcome per input, writes one table per healthy input
(nine out of ten in the spec's scenario), reports exactly one failure, and
for the corrupted file deletes nothing, writes nothing, and prints exactly
the identifier-free handler message; a conversion flags a failure exactly
when it prints one. -/
theorem conversion_failure_isolation (parse : String → Option Int)
    (excText csvPath : String)
    (pre post : List TdmsSpec) (bad : TdmsSpec)
    (hbad : bad.readResult = none)
    (hpre : ∀ f ∈ pre, f.readResult.isSome = true ∧ f.writeOk = true)
    (hpost : ∀ f ∈ post, f.readResult.isSome = true ∧ f.writeOk = true) :
    (procesar_archivos_tdms_paralelo parse (pre ++ bad :: post)).length =
      (pre ++ bad :: post).length ∧
    (procesar_archivos_tdms_paralelo parse (pre ++ bad :: post)).countP
      (fun o => o.written.isSome) = pre.length + post.length ∧
    (procesar_archivos_tdms_paralelo parse (pre ++ bad :: post)).countP
      (fun o => o.failureLogged) = 1 ∧
    (convertir_tdms_a_csv parse bad.readResult bad.hasIndex
      bad.writeOk).sourceDeleted = false ∧
    (convertir_tdms_a_csv parse bad.readResult bad.hasIndex
      bad.writeOk).failureLogged = true ∧
    (convertir_tdms_a_csv parse bad.readResult bad.hasIndex
      bad.writeOk).written = none ∧
    convertir_log excText csvPath bad.readResult bad.writeOk =
      ["Error al convertir TDMS a CSV: " ++ excText] ∧
    (∀ f : TdmsSpec,
      (convertir_tdms_a_csv parse f.readResult f.hasIndex f.writeOk).failureLogged
          = true ↔
        convertir_log excText csvPath f.readResult f.writeOk ≠ []) := by
  have hgoodWritten : ∀ (f : TdmsSpec), f.readResult.isSome = true →
      f.writeOk = true →
      (convertir_tdms_a_csv parse f.readResult f.hasIndex f.writeOk).written.isSome
        = true ∧
      (convertir_tdms_a_csv parse f.readResult f.hasIndex f.writeOk).failureLogged
        = false := by
    intro f hr hw
    rcases hrr : f.readResult with _ | chans
    · rw [hrr] at hr
      simp at hr
    · rw [hw]
      simp [convertir_tdms_a_csv]
  have hbadOut : (convertir_tdms_a_csv parse bad.readResult bad.hasIndex
      bad.writeOk) = ⟨none, false, false, true⟩ := by
    rw [hbad]
    rfl
  have hsplit : procesar_archivos_tdms_paralelo parse (pre ++ bad :: post) =
      procesar_archivos_tdms_paralelo parse pre ++
        convertir_tdms_a_csv parse bad.readResult bad.hasIndex bad.writeOk ::
          procesar_archivos_tdms_paralelo parse post := by
    unfold procesar_archivos_tdms_paralelo
    rw [List.map_append, List.map_cons]
  refine ⟨?_, ?_, ?_, ?_, ?_, ?_, ?_, ?_⟩
  · unfold procesar_archivos_tdms_paralelo
    rw [List.length_map]
  · rw [hsplit, List.countP_append, List.countP_cons, hbadOut]
    have hcpre : (procesar_archivos_tdms_paralelo parse pre).countP
        (fun o => o.written.isSome) = pre.length := by
      have h1 : (procesar_archivos_tdms_paralelo parse pre).countP
          (fun o => o.written.isSome) =
          (procesar_archivos_tdms_paralelo parse pre).length := by
        refine List.countP_eq_length.mpr ?_
        intro o ho
        obtain ⟨f, hf, hof⟩ := List.mem_map.mp ho
        rw [← hof]
        exact (hgoodWritten f (hpre f hf).1 (hpre f hf).2).1
      rw [h1]
      unfold procesar_archivos_tdms_paralelo
      rw [List.length_map]
    have hcpost : (procesar_archivos_tdms_paralelo parse post).countP
        (fun o => o.written.isSome) = post.length := by
      have h1 : (procesar_archivos_tdms_paralelo parse post).countP
          (fun o => o.written.isSome) =
          (procesar_archivos_tdms_paralelo parse post).length := by
        refine List.countP_eq_length.mpr ?_
        intro o ho
        obtain ⟨f, hf, hof⟩ := List.mem_map.mp ho
        rw [← hof]
        exact (hgoodWritten f (hpost f hf).1 (hpost f hf).2).1
      rw [h1]
      unfold procesar_archivos_tdms_paralelo
      rw [List.length_map]
    rw [hcpre, hcpost]
    simp
  · rw [hsplit, List.countP_append, List.countP_cons, hbadOut]
    have hzpre : (procesar_archivos_tdms_paralelo parse pre).countP
        (fun o => o.failureLogged) = 0 := by
      refine List.countP_eq_zero.mpr ?_
      intro o ho
      obtain ⟨f, hf, hof⟩ := List.mem_map.mp ho
      rw [← hof]
      simp [(hgoodWritten f (hpre f hf).1 (hpre f hf).2).2]
    have hzpost : (procesar_archivos_tdms_paralelo parse post).countP
        (fun o => o.failureLogged) = 0 := by
      refine List.countP_eq_zero.mpr ?_
      intro o ho
      obtain ⟨f, hf, hof⟩ := List.mem_map.mp ho
      rw [← hof]
      simp [(hgoodWritten f (hpost f hf).1 (hpost f hf).2).2]
    rw [hzpre, hzpost]
    simp
  · rw [hbadOut]
  · rw [hbadOut]
  · rw [hbadOut]
  · rw [hbad]
    rfl
  · intro f
    rcases hrr : f.readResult with _ | chans
    · simp [convertir_tdms_a_csv, convertir_log]
    · cases hw : f.writeOk with
      | true => simp [convertir_tdms_a_csv, convertir_log]
      | false => simp [convertir_tdms_a_csv, convertir_log]

/-- C7, witnessed at the spec's scenario: 10 inputs, file 4 corrupted, give
10 outcomes, 9 written tables, exactly one reported failure, and the
corrupted source is not deleted. -/
theorem conversion_failure_isolation_witness :
    (procesar_archivos_tdms_paralelo (fun _ => none)
      ([⟨some [⟨"Volt", ["1"]⟩], true, true⟩, ⟨some [⟨"Volt", ["2"]⟩], true, true⟩,
        ⟨some [⟨"Volt", ["3"]⟩], true, true⟩] ++ ⟨none, true, true⟩ ::
       [⟨some [⟨"Volt", ["5"]⟩], true, true⟩, ⟨some [⟨"Volt", ["6"]⟩], true, true⟩,
        ⟨some [⟨"Volt", ["7"]⟩], true, true⟩, ⟨some [⟨"Volt", ["8"]⟩], true, true⟩,
        ⟨some [⟨"Volt", ["9"]⟩], true, true⟩,
        ⟨some [⟨"Volt", ["10"]⟩], true, true⟩])).length = 10 ∧
    (procesar_archivos_tdms_paralelo (fun _ => none)
      ([⟨some [⟨"Volt", ["1"]⟩], true, true⟩, ⟨some [⟨"Volt", ["2"]⟩], true, true⟩,
        ⟨some [⟨"Volt", ["3"]⟩], true, true⟩] ++ ⟨none, true, true⟩ ::
       [⟨some [⟨"Volt", ["5"]⟩], true, true⟩, ⟨some [⟨"Volt", ["6"]⟩], true, true⟩,
        ⟨some [⟨"Volt", ["7"]⟩], true, true⟩, ⟨some [⟨"Volt", ["8"]⟩], true, true⟩,
        ⟨some [⟨"Volt", ["9"]⟩], true, true⟩,
        ⟨some [⟨"Volt", ["10"]⟩], true, true⟩])).countP
      (fun o => o.written.isSome) = 9 ∧
    (procesar_archivos_tdms_paralelo (fun _ => none)
      ([⟨some [⟨"Volt", ["1"]⟩], true, true⟩, ⟨some [⟨"Volt", ["2"]⟩], true, true⟩,
        ⟨some [⟨"Volt", ["3"]⟩], true, true⟩] ++ ⟨none, true, true⟩ ::
       [⟨some [⟨"Volt", ["5"]⟩], true, true⟩, ⟨some [⟨"Volt", ["6"]⟩], true, true⟩,
        ⟨some [⟨"Volt", ["7"]⟩], true, true⟩, ⟨some [⟨"Volt", ["8"]⟩], true, true⟩,
        ⟨some [⟨"Volt", ["9"]⟩], true, true⟩,
        ⟨some [⟨"Volt", ["10"]⟩], true, true⟩])).countP
      (fun o => o.failureLogged) = 1 ∧
    (convertir_tdms_a_csv (fun _ => none) none true true).sourceDeleted = false ∧
    convertir_log "Probably not a TDMS file" "salida/file4.csv" none true =
      ["Error al convertir TDMS a CSV: Probably not a TDMS file"] := by
  have h := conversion_failure_isolation (fun _ => none)
    "Probably not a TDMS file" "salida/file4.csv"
    [⟨some [⟨"Volt", ["1"]⟩], true, true⟩, ⟨some [⟨"Volt", ["2"]⟩], true, true⟩,
     ⟨some [⟨"Volt", ["3"]⟩], true, true⟩]
    [⟨some [⟨"Volt", ["5"]⟩], true, true⟩, ⟨some [⟨"Volt", ["6"]⟩], true, true⟩,
     ⟨some [⟨"Volt", ["7"]⟩], true, true⟩, ⟨some [⟨"Volt", ["8"]⟩], true, true⟩,
     ⟨some [⟨"Volt", ["9"]⟩], true, true⟩, ⟨some [⟨"Volt", ["10"]⟩], true, true⟩]
    ⟨none, true, true⟩ rfl (by decide) (by decide)
  exact ⟨h.1, h.2.1, h.2.2.1, h.2.2.2.1, h.2.2.2.2.2.2.1⟩

/-- C10. During conversion, a channel whose lowercased name is exactly `time`
or starts with `date` has its values put through the pandas datetime parser
(abstracted as `parse`, with `none` modelling the `NaT` that
`errors='coerce'` yields on a parse failure) and shifted backwards by exactly
3 hours before being written; every other channel's values are written
unmodified; and a successful conversion writes exactly the channel-wise
converted table. -/
theorem time_channel_conversion (parse : String → Option Int) (c : Channel)
    (chans : List Channel) (hasIndex : Bool) :
    (isTimeChannel c.name = true →
      convertData parse c =
        ColData.times (c.data.map (fun s => (parse s).map (fun t => t - threeHours)))) ∧
    (isTimeChannel c.name = false → convertData parse c = ColData.raws c.data) ∧
    ((convertir_tdms_a_csv parse (some chans) hasIndex true).written =
      some (chans.map (fun ch => (ch.name, convertData parse ch)))) := by
  refine ⟨?_, ?_, ?_⟩
  · intro h
    simp [convertData, h]
  · intro h
    simp [convertData, h]
  · simp [convertir_tdms_a_csv]

/-- C10, witnessed: a channel named `Time` with an unparseable value becomes a
`NaT`; a channel named `Date_1` with a value parsing to exactly three hours
past the epoch becomes the epoch; a channel named `Voltage` is untouched. -/
theorem time_channel_conversion_witness :
    convertData (fun _ => none) ⟨"Time", ["x"]⟩ = ColData.times [none] ∧
    convertData (fun _ => some 10800000000) ⟨"Date_1", ["x"]⟩ =
      ColData.times [some 0] ∧
    convertData (fun _ => none) ⟨"Voltage", ["x"]⟩ = ColData.raws ["x"] :=
  ⟨(time_channel_conversion (fun _ => none) ⟨"Time", ["x"]⟩ [] true).1 (by decide),
   (time_channel_conversion (fun _ => some 10800000000) ⟨"Date_1", ["x"]⟩ []
      true).1 (by decide),
   (time_channel_conversion (fun _ => none) ⟨"Voltage", ["x"]⟩ [] true).2.1
      (by decide)⟩

/-- A nonnegative decimal number as a CSV cell carries it: integer part plus
the digits after the decimal mark (`frac = []` models an integer-formatted
cell, which is written without any mark). -/
structure DecNum where
  ip : Nat
  frac : List Nat
deriving DecidableEq

def comaMark : Char := ','

def dotMark : Char := '.'

def digitChar (n : Nat) : Char := Char.ofNat (48 + n)

/-- Render a numeric cell the way `to_csv(..., decimal=mark)` does. -/
def writeCell (mark : Char) (v : DecNum) : String :=
  if v.frac.isEmpty then toString v.ip
  else toString v.ip ++ String.mk [mark] ++ String.mk (v.frac.map digitChar)

/-- Recognize a numeric field the way `read_csv(..., decimal=mark)` does:
digits, optionally the decimal mark followed by more digits; any other field
is not numeric (`none`), and pandas then keeps the column as text rather than
as the number. -/
def parseCell (mark : Char) (s : String) : Option DecNum :=
  let ds := s.data.takeWhile Char.isDigit
  let rest := s.data.dropWhile Char.isDigit
  if ds.isEmpty then none
  else
    let ip := ds.foldl (fun a c => a * 10 + (c.toNat - 48)) 0
    match rest with
    | [] => some ⟨ip, []⟩
    | c :: rest2 =>
      if c == mark && !rest2.isEmpty && rest2.all Char.isDigit then
        some ⟨ip, rest2.map (fun c2 => c2.toNat - 48)⟩
      else none

/-- `ordenar_y_agrupado_por_dia` writes the day CSVs with `decimal=","`. -/
def engineWriteCell (v : DecNum) : String := writeCell comaMark v

/-- `csv_to_mat` reads the very same files back with `decimal="."`. -/
def matReadCell (s : String) : Option DecNum := parseCell dotMark s

/-- C9. The write/read decimal conventions disagree, so the round trip loses
every fractional value: 3.5 is written as the field `3,5`, which the export's
`decimal="."` reader does not recognize as a number at all (pandas falls back
to text, so the value placed in the MAT data matrix is not the number 3.5) —
even though the same field read back under the writer's own `decimal=","`
convention is exactly 3.5 again. Integer-formatted cells survive. -/
theorem decimal_roundtrip_mismatch :
    engineWriteCell ⟨3, [5]⟩ = "3,5" ∧
    matReadCell (engineWriteCell ⟨3, [5]⟩) = none ∧
    parseCell comaMark (engineWriteCell ⟨3, [5]⟩) = some ⟨3, [5]⟩ ∧
    matReadCell (engineWriteCell ⟨3, []⟩) = some ⟨3, []⟩ := by
  refine ⟨?_, ?_, ?_, ?_⟩
  · decide
  · decide
  · decide
  · decide
